import Mathlib

/-!
The program pigeonhole.c : generator of DIMACS CNF pigeonhole instances.

A shallow embedding of `src/bin/pigeonhole.c` and a verification of the
output contract of the generator.

Modelling conventions.

* A C `int` is a 32-bit two's complement integer: every arithmetic operation
  of the source is followed by `wrap32`, which is the identity exactly on the
  range `inInt32`.  The integer division of the source is the truncating
  division `Int.tdiv`.
* A counting loop `for (x = lo; x <= hi; x++)` whose bound is the largest
  `int` never ends, since its test holds for every `int`.  A run that does
  not end has no result: `generate` and `main` return `none` for it.
* The standard output is the list of the `printf` calls performed, in order
  (`Out`): one constructor for each format string of the source.  Its text is
  `textOf`, where `%d` is the decimal representation of the argument.
* `exit(1)` inside `usage()` ends the run: `usage` is a final `Result`.
* The definitions `headerZ`, `atMostOneZ`, `atLeastOneZ` are the same calls
  and loops with the arithmetic of the integers, without `wrap32`.  They are
  what the loops compute as long as nothing leaves the range, and serve in
  the proofs; the contract is stated on `generate` and `main`.
-/

namespace Pigeonhole

/-! ## Output events -/

/-- One `printf` call of the program.  Each constructor is one of the format
strings of the source, with the integer arguments of the call. -/
inductive Out where
  /-- The call `printf(s)` for a constant string without conversion. -/
  | str (s : String)
  /-- The call `printf("c pigeon-%d: placing %d pigeons into %d holes\n", a, b, c)`. -/
  | title (a b c : Int)
  /-- The call `printf("p cnf %d %d\n", v, c)`. -/
  | problem (v c : Int)
  /-- The call `printf("-%d -%d 0\n", a, b)`. -/
  | negPair (a b : Int)
  /-- The call `printf("%d ", a)`. -/
  | posLit (a : Int)
  /-- The call `printf("0\n")`. -/
  | endClause
  deriving DecidableEq, Repr

/-- What a run leaves behind: the `printf` calls on standard output and the
exit status of the process. -/
structure Result where
  stdout : List Out
  status : Int
  deriving DecidableEq, Repr

/-! ## Machine integers -/

/-- The range of a 32-bit signed `int`. -/
def inInt32 (x : Int) : Prop :=
  -2147483648 ≤ x ∧ x ≤ 2147483647

/-- The 32-bit two's complement value that represents `x`. -/
def wrap32 (x : Int) : Int :=
  (x + 2147483648) % 4294967296 - 2147483648

/-! ## Control flow -/

/-- The iterations of a counting loop that starts at `x` and runs `t` times,
the counter growing by one each time (`x++`). -/
def forFrom {α : Type} (body : Int → List α) : Nat → Int → List α
  | 0, _ => []
  | t + 1, x => body x ++ forFrom body t (x + 1)

/-- The loop `for (x = lo; x <= hi; x++) body`: it runs for
`x = lo, lo+1, ..., hi`, that is `hi + 1 - lo` times, and not at all when
`hi < lo`. -/
def forLoop {α : Type} (lo hi : Int) (body : Int → List α) : List α :=
  forFrom body (hi + 1 - lo).toNat lo

/-- The iterations of a counting loop that starts at `x` and runs `t` times,
when the body is a part of the run that may not end: the loop has an output
when every iteration has one. -/
def forFromM {α : Type} (body : Int → Option (List α)) : Nat → Int → Option (List α)
  | 0, _ => some []
  | t + 1, x =>
    match body x, forFromM body t (x + 1) with
    | some a, some b => some (a ++ b)
    | _, _ => none

/-- The loop `for (x = lo; x <= hi; x++) body` on 32-bit counters.  When `hi`
is the largest `int` the test `x <= hi` holds for every `int` and the loop
never ends.  Otherwise it runs for `x = lo, lo+1, ..., hi`, that is
`hi + 1 - lo` times (not at all when `hi < lo`), and the counter stays below
the largest `int`, so that `x++` does not wrap. -/
def forLoop32 {α : Type} (lo hi : Int) (body : Int → Option (List α)) :
    Option (List α) :=
  if hi = 2147483647 then none else forFromM body (hi + 1 - lo).toNat lo

/-! ## The program -/

/-- The function `usage()`: five `printf` calls, then `exit(1)`. -/
def usage : Result :=
  { stdout :=
      [ Out.str "Usage:\n",
        Out.str "\n",
        Out.str "  pigeonhole n\n",
        Out.str "\n",
        Out.str "where n>0 is the number of holes (the number of pigeons is n+1).\n" ],
    status := 1 }

/-- The C predicate `isspace` in the "C" locale. -/
def isSpaceC (c : Char) : Bool :=
  c == ' ' || c == '\t' || c == '\n' || c == '\x0b' || c == '\x0c' || c == '\r'

/-- The value of the longest prefix of decimal digits, continuing from `acc`. -/
def digitsValue : List Char → Int → Int
  | [], acc => acc
  | c :: cs, acc =>
    if c.isDigit then digitsValue cs (10 * acc + ((c.toNat - 48 : Nat) : Int)) else acc

/-- The value that `strtol` returns for the mathematical value `x`: it is
clamped to the range of a 64-bit `long`. -/
def clampLong (x : Int) : Int :=
  if x < -9223372036854775808 then -9223372036854775808
  else if 9223372036854775807 < x then 9223372036854775807
  else x

/-- The library function `atoi`, which is `(int) strtol(s, NULL, 10)`:
leading white space is skipped, an optional sign is read, then the longest
run of decimal digits; whatever follows is ignored, and the value is `0` when
there is no digit.  The value is clamped to the range of a 64-bit `long` by
`strtol`, and the conversion to `int` keeps its low 32 bits. -/
def atoi (s : String) : Int :=
  wrap32 (clampLong
    (match s.toList.dropWhile isSpaceC with
      | '-' :: cs => - digitsValue cs 0
      | '+' :: cs => digitsValue cs 0
      | cs => digitsValue cs 0))

/-- The variable `x_{n*(i-1)+j}`: pigeon `i` is placed in hole `j`. -/
def var (n i j : Int) : Int := n * (i - 1) + j

/-- The problem line as a machine with wrapping 32-bit arithmetic computes
it: every operation of `(n+1) * n` and `(n+1) + n * (n * (n+1) / 2)` is
followed by `wrap32`. -/
def problemLine32 (n : Int) : Out :=
  Out.problem (wrap32 (wrap32 (n + 1) * n))
    (wrap32 (wrap32 (n + 1)
      + wrap32 (n * wrap32 (Int.tdiv (wrap32 (n * wrap32 (n + 1))) 2))))

/-- The lines of the DIMACS header, ending with the problem line. -/
def header (n : Int) : List Out :=
  [ Out.title n (wrap32 (n + 1)) n,
    Out.str "c \n",
    Out.str "c File generated by \x27pigeonhole\x27, (c) Tjark Weber\n",
    Out.str "c \n",
    Out.str "c The SAT encoding of this problem is very straightforward.  For each pigeon i\n",
    Out.str "c and each hole j we have a variable x_\x7bn*(i-1)+j\x7d which means that pigeon i\n",
    Out.str "c is placed in hole j.  Then we have n+1 clauses which say that a pigeon has\n",
    Out.str "c to be placed in some hole.  Then for each hole we have a set of clauses\n",
    Out.str "c ensuring that only one single pigeon is placed into that hole.\n",
    Out.str "c \n",
    Out.str "c This encoding leads to a total of (n+1) * n propositional variables and\n",
    Out.str "c (n+1) + n * (n * (n+1) / 2) clauses.\n",
    Out.str "c \n",
    Out.str "c The resulting SAT problem is unsatisfiable.\n",
    Out.str "c \n",
    problemLine32 n ]

/-- The first loop nest: for each hole, the clauses ensuring that only one
single pigeon is placed into that hole. -/
def atMostOne (n : Int) : Option (List Out) :=
  forLoop32 1 n fun j =>
    forLoop32 1 n fun i =>
      forLoop32 (wrap32 (i + 1)) (wrap32 (n + 1)) fun k =>
        some [Out.negPair (wrap32 (wrap32 (n * wrap32 (i - 1)) + j))
                (wrap32 (wrap32 (n * wrap32 (k - 1)) + j))]

/-- The second loop nest: `n+1` clauses which say that a pigeon has to be
placed in some hole. -/
def atLeastOne (n : Int) : Option (List Out) :=
  forLoop32 1 (wrap32 (n + 1)) fun i =>
    (forLoop32 1 n fun j =>
      some [Out.posLit (wrap32 (wrap32 (n * wrap32 (i - 1)) + j))]).map
        fun lits => lits ++ [Out.endClause]

/-- Everything `main` prints once the argument has been accepted, when the
two loop nests end. -/
def generate (n : Int) : Option (List Out) :=
  match atMostOne n, atLeastOne n with
  | some a, some b => some (header n ++ a ++ b)
  | _, _ => none

/-- The function `main`; `argv` includes the program name, and `argc` is its
length.  The result is `none` when the run does not end. -/
def main (argv : List String) : Option Result :=
  if argv.length ≠ 2 then some usage
  else
    let n := atoi (argv.getD 1 "")
    if n < 1 then some usage
    else (generate n).map fun outs => { stdout := outs, status := 0 }

/-! ## Reading the output as a DIMACS file -/

/-- The integers that a `printf` call writes on a clause line, in order; `0`
is the end-of-clause sentinel.  `"-%d"` applied to a positive `a` reads as
`-a` (see `Out.wellFormed`).  Header text carries no clause token. -/
def Out.tokens : Out → List Int
  | Out.negPair a b => [-a, -b, 0]
  | Out.posLit a => [a]
  | Out.endClause => [0]
  | _ => []

/-- Does the call write DIMACS literals?  The format `"-%d"` writes the
literal `-a` only for a positive `a`: for a negative `a` it writes two minus
signs, which is no integer.  The format `"%d "` writes a literal when `a` is
not `0`, the sentinel. -/
def Out.wellFormed : Out → Bool
  | Out.negPair a b => decide (0 < a) && decide (0 < b)
  | Out.posLit a => decide (a ≠ 0)
  | _ => true

/-- Is this call the one that prints the problem line? -/
def Out.isProblem : Out → Bool
  | Out.problem _ _ => true
  | _ => false

/-- The number of line breaks that a `printf` call writes. -/
def Out.newlines : Out → Nat
  | Out.str s => s.toList.count '\n'
  | Out.title _ _ _ => 1
  | Out.problem _ _ => 1
  | Out.negPair _ _ => 1
  | Out.posLit _ => 0
  | Out.endClause => 1

/-- Cuts a stream of DIMACS integers into clauses at each sentinel `0`;
`cur` holds the literals of the clause being read.  A clause that is not
closed by a sentinel is not a clause. -/
def splitClauses : List Int → List Int → List (List Int)
  | _, [] => []
  | cur, t :: ts =>
    if t = 0 then cur :: splitClauses [] ts else splitClauses (cur ++ [t]) ts

/-- The clauses written by a sequence of `printf` calls. -/
def clausesOf (outs : List Out) : List (List Int) :=
  splitClauses [] (outs.flatMap Out.tokens)

/-- The part of the output that follows the problem line. -/
def afterProblem : List Out → List Out
  | [] => []
  | o :: os => if o.isProblem then os else afterProblem os

/-! ## Semantics of clauses -/

/-- The truth value of a literal under an assignment of the variables. -/
def litTrue (σ : Int → Bool) (l : Int) : Bool :=
  if 0 < l then σ l else !σ (-l)

/-- A clause is a disjunction of its literals. -/
def clauseTrue (σ : Int → Bool) (c : List Int) : Bool :=
  c.any (litTrue σ)

/-! ## The text written on standard output -/

/-- The conversion `%d` of `printf`: the decimal digits of the value, after a
minus sign when it is negative. -/
def fmtInt (x : Int) : List Char :=
  (toString x).toList

/-- The characters that a `printf` call writes: the format string of the
source with each `%d` replaced by the conversion of its argument. -/
def Out.text : Out → List Char
  | Out.str s => s.toList
  | Out.title a b c =>
    "c pigeon-".toList ++ fmtInt a ++ ": placing ".toList ++ fmtInt b
      ++ " pigeons into ".toList ++ fmtInt c ++ " holes\n".toList
  | Out.problem v c => "p cnf ".toList ++ fmtInt v ++ " ".toList ++ fmtInt c ++ "\n".toList
  | Out.negPair a b => "-".toList ++ fmtInt a ++ " -".toList ++ fmtInt b ++ " 0\n".toList
  | Out.posLit a => fmtInt a ++ " ".toList
  | Out.endClause => "0\n".toList

/-- The text written by a sequence of `printf` calls. -/
def textOf (outs : List Out) : List Char :=
  outs.flatMap Out.text

/-- Cuts a text into its lines at each line break; `cur` holds the characters
of the line being read.  The lines are given without their line break, and
characters after the last line break are not a line. -/
def splitLines : List Char → List Char → List (List Char)
  | _, [] => []
  | cur, c :: cs =>
    if c = '\n' then cur :: splitLines [] cs else splitLines (cur ++ [c]) cs

/-- The lines of a text. -/
def linesOf (t : List Char) : List (List Char) :=
  splitLines [] t

/-- The text of a clause line in the DIMACS format: each literal as a signed
decimal integer followed by one space, then the sentinel `0`. -/
def clauseLine (c : List Int) : List Char :=
  c.flatMap (fun l => fmtInt l ++ [' ']) ++ ['0']

/-- Is the argument, as a whole, an optionally signed decimal integer? -/
def isDecimalInteger (s : String) : Bool :=
  match s.toList with
  | '-' :: cs => !cs.isEmpty && cs.all Char.isDigit
  | '+' :: cs => !cs.isEmpty && cs.all Char.isDigit
  | cs => !cs.isEmpty && cs.all Char.isDigit

/-! ## The values of the expressions -/

/-- The clause count `(n+1) + n * (n * (n+1) / 2)` of the problem line, over
the integers. -/
def clauseCount (n : Int) : Int :=
  (n + 1) + n * Int.tdiv (n * (n + 1)) 2

/-- The values of the arithmetic expressions that `main` evaluates once `n`
is accepted: the arguments of the header calls and their subexpressions,
then, loop by loop, the initial values and increments of the counters, the
loop bounds, and the arguments of each `printf` with their subexpressions. -/
def evaluated (n : Int) : List Int :=
  [n + 1, (n + 1) * n, n * (n + 1), Int.tdiv (n * (n + 1)) 2,
    n * Int.tdiv (n * (n + 1)) 2, (n + 1) + n * Int.tdiv (n * (n + 1)) 2]
  ++ (forLoop 1 n fun j =>
        (forLoop 1 n fun i =>
          [i + 1, n + 1]
          ++ (forLoop (i + 1) (n + 1) fun k =>
                [i - 1, n * (i - 1), n * (i - 1) + j, k - 1, n * (k - 1), n * (k - 1) + j,
                  k + 1, n + 1])
          ++ [i + 1])
        ++ [j + 1])
  ++ (forLoop 1 (n + 1) fun i =>
        [n + 1]
        ++ (forLoop 1 n fun j => [i - 1, n * (i - 1), n * (i - 1) + j, j + 1])
        ++ [i + 1])

/-! ## The loops over the integers (used in the proofs only) -/

/-- The header calls with the arithmetic of the integers. -/
def headerZ (n : Int) : List Out :=
  [ Out.title n (n + 1) n,
    Out.str "c \n",
    Out.str "c File generated by \x27pigeonhole\x27, (c) Tjark Weber\n",
    Out.str "c \n",
    Out.str "c The SAT encoding of this problem is very straightforward.  For each pigeon i\n",
    Out.str "c and each hole j we have a variable x_\x7bn*(i-1)+j\x7d which means that pigeon i\n",
    Out.str "c is placed in hole j.  Then we have n+1 clauses which say that a pigeon has\n",
    Out.str "c to be placed in some hole.  Then for each hole we have a set of clauses\n",
    Out.str "c ensuring that only one single pigeon is placed into that hole.\n",
    Out.str "c \n",
    Out.str "c This encoding leads to a total of (n+1) * n propositional variables and\n",
    Out.str "c (n+1) + n * (n * (n+1) / 2) clauses.\n",
    Out.str "c \n",
    Out.str "c The resulting SAT problem is unsatisfiable.\n",
    Out.str "c \n",
    Out.problem ((n + 1) * n) ((n + 1) + n * Int.tdiv (n * (n + 1)) 2) ]

/-- The first loop nest with the arithmetic of the integers. -/
def atMostOneZ (n : Int) : List Out :=
  forLoop 1 n fun j =>
    forLoop 1 n fun i =>
      forLoop (i + 1) (n + 1) fun k =>
        [Out.negPair (n * (i - 1) + j) (n * (k - 1) + j)]

/-- The second loop nest with the arithmetic of the integers. -/
def atLeastOneZ (n : Int) : List Out :=
  forLoop 1 (n + 1) fun i =>
    (forLoop 1 n fun j => [Out.posLit (n * (i - 1) + j)]) ++ [Out.endClause]

/-- The whole output with the arithmetic of the integers. -/
def generateZ (n : Int) : List Out :=
  headerZ n ++ atMostOneZ n ++ atLeastOneZ n

/-- The clauses of the output over the integers: first the
at-most-one-pigeon-per-hole clauses, then the at-least-one-hole-per-pigeon
clauses. -/
def clausesZ (n : Int) : List (List Int) :=
  clausesOf (generateZ n)

/-- The first loop nest as a total function: the loops of `atMostOne` when
they end, with the 32-bit arithmetic of the source. -/
def atMostOneW (n : Int) : List Out :=
  forLoop 1 n fun j =>
    forLoop 1 n fun i =>
      forLoop (wrap32 (i + 1)) (wrap32 (n + 1)) fun k =>
        [Out.negPair (wrap32 (wrap32 (n * wrap32 (i - 1)) + j))
          (wrap32 (wrap32 (n * wrap32 (k - 1)) + j))]

/-- The second loop nest as a total function: the loops of `atLeastOne` when
they end, with the 32-bit arithmetic of the source. -/
def atLeastOneW (n : Int) : List Out :=
  forLoop 1 (wrap32 (n + 1)) fun i =>
    (forLoop 1 n fun j => [Out.posLit (wrap32 (wrap32 (n * wrap32 (i - 1)) + j))])
      ++ [Out.endClause]

/-! ## Vocabulary of the contract -/

/-- The list `1, 2, ..., k`. -/
def upTo (k : Int) : List Int :=
  (List.range k.toNat).map fun (t : Nat) => (t : Int) + 1

/-- The strict lexicographic order on triples `(j, i, k)`. -/
def lexLt (a b : Int × Int × Int) : Prop :=
  a.1 < b.1 ∨ (a.1 = b.1 ∧ (a.2.1 < b.2.1 ∨ (a.2.1 = b.2.1 ∧ a.2.2 < b.2.2)))

/-- The clauses of the instance as the specification lists them: for each
hole `j` from `1` to `n` and each pair of pigeons `i < k` of `[1, n+1]`, in
the order of `j`, then `i`, then `k`, the clause of the two negative literals
of `n*(i-1)+j` and `n*(k-1)+j`; then for each pigeon `i` from `1` to `n+1` the
clause of the `n` positive literals `n*(i-1)+1, ..., n*(i-1)+n`. -/
def specClauses (n : Int) : List (List Int) :=
  ((upTo n).flatMap fun j =>
    (upTo (n + 1)).flatMap fun i =>
      ((upTo (n + 1)).filter fun k => decide (i < k)).map fun k =>
        [-(n * (i - 1) + j), -(n * (k - 1) + j)])
  ++ (upTo (n + 1)).map fun i => (upTo n).map fun j => n * (i - 1) + j

/-! ## Closed forms used in the proofs -/

/-- The triples `(j, i, k)` visited by the first loop nest, indexed from zero. -/
def amoTriples (m : Nat) : List (Int × Int × Int) :=
  (List.range m).flatMap fun j =>
    (List.range m).flatMap fun i =>
      (List.range (m - i)).flatMap fun t =>
        [((1 : Int) + j, (1 : Int) + i, (1 : Int) + i + 1 + t)]

/-- The at-most-one clauses for `m` holes, indexed from zero: hole `1 + j`,
pigeons `1 + i` and `1 + i + 1 + t`. -/
def amoList (m : Nat) : List (List Int) :=
  (List.range m).flatMap fun j =>
    (List.range m).flatMap fun i =>
      (List.range (m - i)).flatMap fun t =>
        [[-(var m (1 + i) (1 + j)), -(var m (1 + i + 1 + t) (1 + j))]]

/-- The at-least-one clauses for `m` holes, indexed from zero. -/
def aloList (m : Nat) : List (List Int) :=
  (List.range (m + 1)).flatMap fun i =>
    [(List.range m).flatMap fun j => [var m (1 + i) (1 + j)]]

/-! ## Assignments used to show that no clause is redundant -/

/-- The assignment given by a placement `p` of pigeons in holes, both indexed
from zero with `m` holes: variable `m*i + j + 1` is true when `p i j`. -/
def placement (m : Nat) (p : Nat → Nat → Bool) (v : Int) : Bool :=
  p ((v.toNat - 1) / m) ((v.toNat - 1) % m)

/-- The hole of pigeon `i` when pigeon `i0` is left out: the other pigeons
take the holes in order. -/
def holeSkip (i0 i : Nat) : Nat :=
  if i < i0 then i else i - 1

/-- The hole of pigeon `i` when pigeons `i1 < i2` share hole `j0`: the other
pigeons take the other holes in order. -/
def holeShared (j0 i1 i2 i : Nat) : Nat :=
  if i = i1 ∨ i = i2 then j0
  else if i < i1 then (if i < j0 then i else i + 1)
  else if i < i2 then (if i < j0 + 1 then i - 1 else i)
  else (if i < j0 + 2 then i - 2 else i - 1)

/-! ## Loops as ranges -/

theorem forFrom_eq_flatMap {α : Type} (body : Int → List α) (t : Nat) (x : Int) :
    forFrom body t x = (List.range t).flatMap (fun s => body (x + (s : Int))) := by
  induction t generalizing x with
  | zero => rfl
  | succ t ih =>
    rw [forFrom, ih, List.range_succ_eq_map, List.flatMap_cons, List.flatMap_map]
    congr 1
    · simp
    · congr 1
      funext s
      simp only [Function.comp, Nat.succ_eq_add_one, Nat.cast_add, Nat.cast_one]
      congr 1
      ring

theorem forLoop_eq_flatMap {α : Type} (lo hi : Int) (body : Int → List α) :
    forLoop lo hi body
      = (List.range (hi + 1 - lo).toNat).flatMap (fun s => body (lo + (s : Int))) :=
  forFrom_eq_flatMap body _ lo

/-! ## The clause list in closed form -/

theorem splitClauses_append_zero (cur c rest : List Int) (hc : ∀ l ∈ c, l ≠ 0) :
    splitClauses cur (c ++ 0 :: rest) = (cur ++ c) :: splitClauses [] rest := by
  induction c generalizing cur with
  | nil => simp [splitClauses]
  | cons l c ih =>
    have hl : l ≠ 0 := hc l (List.mem_cons_self _ _)
    have hc2 : ∀ x ∈ c, x ≠ 0 := fun x hx => hc x (List.mem_cons_of_mem _ hx)
    simp [splitClauses, hl, ih _ hc2]

theorem splitClauses_flatMap (cs : List (List Int)) (rest : List Int)
    (hcs : ∀ c ∈ cs, ∀ l ∈ c, l ≠ 0) :
    splitClauses [] (cs.flatMap (fun c => c ++ [0]) ++ rest)
      = cs ++ splitClauses [] rest := by
  induction cs with
  | nil => simp
  | cons c cs ih =>
    have h1 : ∀ l ∈ c, l ≠ 0 := hcs c (List.mem_cons_self _ _)
    have h2 : ∀ d ∈ cs, ∀ l ∈ d, l ≠ 0 := fun d hd => hcs d (List.mem_cons_of_mem _ hd)
    rw [List.flatMap_cons, List.append_assoc, List.append_assoc, List.singleton_append,
      splitClauses_append_zero [] c _ h1, ih h2]
    simp

theorem var_cast (m i j : Nat) :
    var (m : Int) (1 + (i : Int)) (1 + (j : Int)) = ((m * i + j + 1 : Nat) : Int) := by
  simp only [var]
  push_cast
  ring

theorem var_cast_pos (m i j : Nat) : 0 < var (m : Int) (1 + (i : Int)) (1 + (j : Int)) := by
  rw [var_cast]
  exact_mod_cast Nat.succ_pos _

theorem var_cast_pos2 (m i t j : Nat) :
    0 < var (m : Int) (1 + (i : Int) + 1 + (t : Int)) (1 + (j : Int)) := by
  have h := var_cast_pos m (i + 1 + t) j
  have e : (1 : Int) + ((i + 1 + t : Nat) : Int) = 1 + (i : Int) + 1 + (t : Int) := by
    push_cast
    ring
  rwa [e] at h

theorem tokens_atMostOne (m : Nat) :
    (atMostOneZ (m : Int)).flatMap Out.tokens = (amoList m).flatMap (fun c => c ++ [0]) := by
  simp only [atMostOneZ, amoList, forLoop_eq_flatMap, List.flatMap_assoc]
  have e1 : ((m : Int) + 1 - 1).toNat = m := by omega
  rw [e1]
  refine List.flatMap_congr ?_
  intro j _
  refine List.flatMap_congr ?_
  intro i _
  have e2 : ((m : Int) + 1 + 1 - (1 + (i : Int) + 1)).toNat = m - i := by omega
  rw [e2]
  refine List.flatMap_congr ?_
  intro t _
  simp [Out.tokens, var]

theorem tokens_atLeastOne (m : Nat) :
    (atLeastOneZ (m : Int)).flatMap Out.tokens = (aloList m).flatMap (fun c => c ++ [0]) := by
  simp only [atLeastOneZ, aloList, forLoop_eq_flatMap, List.flatMap_assoc]
  have e1 : ((m : Int) + 1 - 1).toNat = m := by omega
  have e2 : ((m : Int) + 1 + 1 - 1).toNat = m + 1 := by omega
  rw [e1, e2]
  refine List.flatMap_congr ?_
  intro i _
  simp [Out.tokens, var, List.flatMap_assoc]

theorem amoList_ne_zero (m : Nat) : ∀ c ∈ amoList m, ∀ l ∈ c, l ≠ 0 := by
  intro c hc l hl
  simp only [amoList, List.mem_flatMap, List.mem_range, List.mem_singleton] at hc
  obtain ⟨j, _, i, _, t, _, rfl⟩ := hc
  have h1 := var_cast_pos m i j
  have h2 := var_cast_pos2 m i t j
  simp only [List.mem_cons, List.mem_singleton, List.not_mem_nil, or_false] at hl
  rcases hl with rfl | rfl <;> omega

theorem aloList_ne_zero (m : Nat) : ∀ c ∈ aloList m, ∀ l ∈ c, l ≠ 0 := by
  intro c hc l hl
  simp only [aloList, List.mem_flatMap, List.mem_range, List.mem_singleton] at hc
  obtain ⟨i, _, rfl⟩ := hc
  simp only [List.mem_flatMap, List.mem_range, List.mem_singleton] at hl
  obtain ⟨j, _, rfl⟩ := hl
  have h1 := var_cast_pos m i j
  omega

theorem clausesOf_body (m : Nat) :
    clausesOf (atMostOneZ (m : Int) ++ atLeastOneZ (m : Int)) = amoList m ++ aloList m := by
  unfold clausesOf
  rw [List.flatMap_append, tokens_atMostOne, tokens_atLeastOne,
    splitClauses_flatMap _ _ (amoList_ne_zero m)]
  have h := splitClauses_flatMap (aloList m) [] (aloList_ne_zero m)
  rw [List.append_nil] at h
  rw [h]
  simp [splitClauses]

theorem header_tokens (n : Int) : (headerZ n).flatMap Out.tokens = [] := by
  simp [headerZ, Out.tokens]

theorem clauses_cast (m : Nat) : clausesZ (m : Int) = amoList m ++ aloList m := by
  unfold clausesZ generateZ
  rw [← clausesOf_body]
  unfold clausesOf
  rw [List.append_assoc, List.flatMap_append, header_tokens, List.nil_append]

theorem length_flatMap_eq {α β : Type} (l : List α) (g : α → List β) :
    (l.flatMap g).length = (l.map (fun i => (g i).length)).sum := by
  induction l with
  | nil => rfl
  | cons a l ih => simp [ih]

theorem sum_map_const_range (m c : Nat) :
    ((List.range m).map (fun _ => c)).sum = m * c := by
  induction m with
  | zero => simp
  | succ m ih =>
    rw [List.range_succ, List.map_append, List.sum_append, ih]
    simp [Nat.succ_mul]

theorem sum_range_sub (m : Nat) :
    2 * ((List.range m).map (fun i => m - i)).sum = m * (m + 1) := by
  induction m with
  | zero => rfl
  | succ m ih =>
    rw [List.range_succ_eq_map, List.map_cons, List.map_map, List.sum_cons]
    have e : ((fun i => m + 1 - i) ∘ Nat.succ) = (fun i => m - i) := by
      funext i
      simp [Function.comp]
    rw [e]
    have := ih
    ring_nf
    ring_nf at this
    omega

theorem length_amoList (m : Nat) : (amoList m).length = m * (m * (m + 1) / 2) := by
  have h := sum_range_sub m
  have e : ((List.range m).map (fun i => m - i)).sum = m * (m + 1) / 2 := by omega
  simp only [amoList, length_flatMap_eq, List.length_singleton, sum_map_const_range,
    Nat.mul_one, e]

theorem length_aloList (m : Nat) : (aloList m).length = m + 1 := by
  simp only [aloList, length_flatMap_eq, List.length_singleton, sum_map_const_range,
    Nat.mul_one]

theorem mem_amoList (m : Nat) (c : List Int) :
    c ∈ amoList m ↔ ∃ j < m, ∃ i < m, ∃ t < m - i,
      c = [-(var m (1 + i) (1 + j)), -(var m (1 + i + 1 + t) (1 + j))] := by
  simp only [amoList, List.mem_flatMap, List.mem_range, List.mem_singleton]

theorem mem_aloList (m : Nat) (c : List Int) :
    c ∈ aloList m ↔ ∃ i < m + 1,
      c = (List.range m).flatMap fun j => [var (m : Int) (1 + (i : Int)) (1 + (j : Int))] := by
  simp only [aloList, List.mem_flatMap, List.mem_range, List.mem_singleton]

theorem exists_nat_of_one_le (n : Int) (hn : 1 ≤ n) : ∃ m : Nat, 1 ≤ m ∧ n = (m : Int) :=
  ⟨n.toNat, by omega, by omega⟩

theorem sum_map_flatMap {α β : Type} (l : List α) (g : α → List β) (f : β → Nat) :
    ((l.flatMap g).map f).sum = (l.map (fun a => ((g a).map f).sum)).sum := by
  induction l with
  | nil => rfl
  | cons a l ih => simp [ih]

theorem newlines_atMostOne (m : Nat) :
    ((atMostOneZ (m : Int)).map Out.newlines).sum = m * (m * (m + 1) / 2) := by
  have h := sum_range_sub m
  have e : ((List.range m).map (fun i => m - i)).sum = m * (m + 1) / 2 := by omega
  have e1 : ((m : Int) + 1 - 1).toNat = m := by omega
  have e2 : ∀ i : Nat, ((m : Int) + 1 + 1 - (1 + (i : Int) + 1)).toNat = m - i := by
    intro i
    omega
  simp only [atMostOneZ, forLoop_eq_flatMap, sum_map_flatMap, e1, e2, List.map_cons,
    List.map_nil, Out.newlines, List.sum_cons, List.sum_nil, sum_map_const_range,
    Nat.mul_one, Nat.add_zero, e]

theorem newlines_atLeastOne (m : Nat) :
    ((atLeastOneZ (m : Int)).map Out.newlines).sum = m + 1 := by
  have e1 : ((m : Int) + 1 - 1).toNat = m := by omega
  have e2 : ((m : Int) + 1 + 1 - 1).toNat = m + 1 := by omega
  simp only [atLeastOneZ, forLoop_eq_flatMap, sum_map_flatMap, e1, e2, List.map_cons,
    List.map_nil, List.map_append, List.sum_append, Out.newlines, List.sum_cons,
    List.sum_nil, sum_map_const_range, Nat.mul_one, Nat.mul_zero, Nat.add_zero,
    Nat.zero_add]

theorem tdiv_cast (m : Nat) :
    Int.tdiv ((m : Int) * ((m : Int) + 1)) 2 = ((m * (m + 1) / 2 : Nat) : Int) := by
  rw [Int.tdiv_eq_ediv (by positivity) (by norm_num)]
  push_cast
  rfl

theorem filter_isProblem_generate (n : Int) :
    (generateZ n).filter Out.isProblem
      = [Out.problem ((n + 1) * n) ((n + 1) + n * Int.tdiv (n * (n + 1)) 2)] := by
  have h1 : (atMostOneZ n).filter Out.isProblem = [] := by
    simp only [atMostOneZ, forLoop_eq_flatMap, List.filter_eq_nil_iff, List.mem_flatMap,
      List.mem_singleton]
    rintro o ⟨_, _, _, _, _, _, rfl⟩
    simp [Out.isProblem]
  have h2 : (atLeastOneZ n).filter Out.isProblem = [] := by
    simp only [atLeastOneZ, forLoop_eq_flatMap, List.filter_eq_nil_iff, List.mem_flatMap,
      List.mem_append, List.mem_singleton]
    rintro o ⟨_, _, (⟨_, _, rfl⟩ | rfl)⟩ <;> simp [Out.isProblem]
  rw [generateZ, List.filter_append, List.filter_append, h1, h2]
  simp [headerZ, Out.isProblem]

theorem pairwise_flatMap_range {β : Type} (R : β → β → Prop) (k : Nat) (g : Nat → List β)
    (h1 : ∀ a, a < k → List.Pairwise R (g a))
    (h2 : ∀ a b, a < b → b < k → ∀ x ∈ g a, ∀ y ∈ g b, R x y) :
    List.Pairwise R ((List.range k).flatMap g) := by
  rw [List.pairwise_flatMap]
  refine ⟨fun a ha => h1 a (List.mem_range.1 ha), ?_⟩
  refine (List.pairwise_lt_range k).imp_of_mem ?_
  intro a b _ hb hlt
  exact h2 a b hlt (List.mem_range.1 hb)

theorem amoList_eq_map (m : Nat) :
    amoList m = (amoTriples m).map
      (fun p => [-((m : Int) * (p.2.1 - 1) + p.1), -((m : Int) * (p.2.2 - 1) + p.1)]) := by
  simp only [amoList, amoTriples, List.map_flatMap, List.map_cons, List.map_nil, var]

theorem mem_amoTriples (m : Nat) (j i k : Int) :
    (j, i, k) ∈ amoTriples m ↔ 1 ≤ j ∧ j ≤ m ∧ 1 ≤ i ∧ i < k ∧ k ≤ (m : Int) + 1 := by
  simp only [amoTriples, List.mem_flatMap, List.mem_range, List.mem_singleton,
    Prod.mk.injEq]
  constructor
  · rintro ⟨j0, hj, i0, hi, t, ht, rfl, rfl, rfl⟩
    omega
  · rintro ⟨h1, h2, h3, h4, h5⟩
    exact ⟨(j - 1).toNat, by omega, (i - 1).toNat, by omega, (k - i - 1).toNat,
      by omega, by omega, by omega, by omega⟩

theorem pairwise_amoTriples (m : Nat) : (amoTriples m).Pairwise lexLt := by
  unfold amoTriples
  refine pairwise_flatMap_range _ _ _ ?_ ?_
  · intro j _
    refine pairwise_flatMap_range _ _ _ ?_ ?_
    · intro i _
      refine pairwise_flatMap_range _ _ _ ?_ ?_
      · intro t _
        exact List.pairwise_singleton _ _
      · intro t t2 hlt _ x hx y hy
        simp only [List.mem_singleton] at hx hy
        subst hx hy
        refine Or.inr ⟨rfl, Or.inr ⟨rfl, ?_⟩⟩
        show (1 : Int) + i + 1 + t < 1 + i + 1 + t2
        omega
    · intro i i2 hlt _ x hx y hy
      simp only [List.mem_flatMap, List.mem_range, List.mem_singleton] at hx hy
      obtain ⟨t, _, rfl⟩ := hx
      obtain ⟨t2, _, rfl⟩ := hy
      refine Or.inr ⟨rfl, Or.inl ?_⟩
      show (1 : Int) + i < 1 + i2
      omega
  · intro j j2 hlt _ x hx y hy
    simp only [List.mem_flatMap, List.mem_range, List.mem_singleton] at hx hy
    obtain ⟨i, _, t, _, rfl⟩ := hx
    obtain ⟨i2, _, t2, _, rfl⟩ := hy
    refine Or.inl ?_
    show (1 : Int) + j < 1 + j2
    omega

theorem amo_count_cast (m : Nat) :
    ((m : Int) * ((m : Int) * ((m : Int) + 1) / 2)).toNat = m * (m * (m + 1) / 2) := by
  have e : (m : Int) * ((m : Int) * ((m : Int) + 1) / 2)
      = ((m * (m * (m + 1) / 2) : Nat) : Int) := by
    push_cast
    rfl
  rw [e, Int.toNat_ofNat]

theorem upTo_cast (m : Nat) : upTo (m : Int) = (List.range m).map (fun (t : Nat) => (t : Int) + 1) := by
  unfold upTo
  rw [Int.toNat_ofNat]

theorem flatMap_singleton_eq_map {α β : Type} (l : List α) (g : α → β) :
    l.flatMap (fun i => [g i]) = l.map g := by
  induction l with
  | nil => rfl
  | cons a l ih => simp [ih]

theorem aloList_eq_map (m : Nat) :
    aloList m = (upTo ((m : Int) + 1)).map
      (fun i => (upTo (m : Int)).map (fun j => (m : Int) * (i - 1) + j)) := by
  have e1 : (m : Int) + 1 = ((m + 1 : Nat) : Int) := by
    push_cast
    rfl
  rw [e1, upTo_cast, upTo_cast, List.map_map]
  unfold aloList
  rw [flatMap_singleton_eq_map]
  refine List.map_congr_left ?_
  intro i _
  rw [flatMap_singleton_eq_map]
  simp only [Function.comp, List.map_map]
  refine List.map_congr_left ?_
  intro j _
  simp only [var, Function.comp]
  ring

theorem var_cast_le (m i j : Nat) (hi : i ≤ m) (hj : j < m) :
    var (m : Int) (1 + (i : Int)) (1 + (j : Int)) ≤ (m : Int) * ((m : Int) + 1) := by
  rw [var_cast]
  have h : m * i ≤ m * m := Nat.mul_le_mul_left m hi
  have h2 : m * i + j + 1 ≤ m * (m + 1) := by
    rw [Nat.mul_succ]
    omega
  exact_mod_cast h2

theorem var_cast_le2 (m i t j : Nat) (ht : i + 1 + t ≤ m) (hj : j < m) :
    var (m : Int) (1 + (i : Int) + 1 + (t : Int)) (1 + (j : Int))
      ≤ (m : Int) * ((m : Int) + 1) := by
  have h := var_cast_le m (i + 1 + t) j ht hj
  have e : (1 : Int) + ((i + 1 + t : Nat) : Int) = 1 + (i : Int) + 1 + (t : Int) := by
    push_cast
    ring
  rwa [e] at h

theorem lit_bounds_cast (m : Nat) :
    ∀ c ∈ amoList m ++ aloList m, ∀ l ∈ c, 1 ≤ |l| ∧ |l| ≤ (m : Int) * ((m : Int) + 1) := by
  intro c hc l hl
  rcases List.mem_append.1 hc with h | h
  · obtain ⟨j, hj, i, hi, t, ht, rfl⟩ := (mem_amoList m c).1 h
    have p1 := var_cast_pos m i j
    have p2 := var_cast_pos2 m i t j
    have b1 := var_cast_le m i j (by omega) hj
    have b2 := var_cast_le2 m i t j (by omega) hj
    simp only [List.mem_cons, List.mem_singleton, List.not_mem_nil, or_false] at hl
    rcases hl with rfl | rfl
    · rw [abs_neg, abs_of_pos p1]
      omega
    · rw [abs_neg, abs_of_pos p2]
      omega
  · obtain ⟨i, hi, rfl⟩ := (mem_aloList m c).1 h
    simp only [List.mem_flatMap, List.mem_range, List.mem_singleton] at hl
    obtain ⟨j, hj, rfl⟩ := hl
    have p1 := var_cast_pos m i j
    have b1 := var_cast_le m i j (by omega) hj
    rw [abs_of_pos p1]
    omega

theorem filter_pos_amoList (m : Nat) :
    (amoList m).filter (fun c => c.all fun l => decide (0 < l)) = [] := by
  rw [List.filter_eq_nil_iff]
  intro c hc
  obtain ⟨j, _, i, _, t, _, rfl⟩ := (mem_amoList m c).1 hc
  have p1 := var_cast_pos m i j
  simp only [List.all_cons, Bool.and_eq_true, decide_eq_true_eq, not_and]
  intro h
  omega

theorem filter_pos_aloList (m : Nat) :
    (aloList m).filter (fun c => c.all fun l => decide (0 < l)) = aloList m := by
  rw [List.filter_eq_self]
  intro c hc
  obtain ⟨i, _, rfl⟩ := (mem_aloList m c).1 hc
  rw [List.all_eq_true]
  intro l hl
  simp only [List.mem_flatMap, List.mem_range, List.mem_singleton] at hl
  obtain ⟨j, _, rfl⟩ := hl
  exact decide_eq_true (var_cast_pos m i j)

theorem length_mem_aloList (m : Nat) : ∀ c ∈ aloList m, c.length = m := by
  intro c hc
  obtain ⟨i, _, rfl⟩ := (mem_aloList m c).1 hc
  simp only [length_flatMap_eq, List.length_singleton, sum_map_const_range, Nat.mul_one]

theorem countP_neg_amoList (m : Nat) :
    (amoList m).countP (fun c => decide (c.length = 2) && c.all fun l => decide (l < 0))
      = (amoList m).length := by
  rw [List.countP_eq_length]
  intro c hc
  obtain ⟨j, _, i, _, t, _, rfl⟩ := (mem_amoList m c).1 hc
  have p1 := var_cast_pos m i j
  have p2 := var_cast_pos2 m i t j
  simp only [List.length_cons, List.length_nil, List.all_cons, List.all_nil, Bool.and_true,
    Bool.and_eq_true, decide_eq_true_eq]
  exact ⟨trivial, by omega, by omega⟩

theorem countP_neg_aloList (m : Nat) :
    (aloList m).countP (fun c => decide (c.length = 2) && c.all fun l => decide (l < 0))
      = 0 := by
  rw [List.countP_eq_zero]
  intro c hc
  obtain ⟨i, _, rfl⟩ := (mem_aloList m c).1 hc
  intro h
  rw [Bool.and_eq_true, decide_eq_true_eq, List.all_eq_true] at h
  obtain ⟨hlen, hall⟩ := h
  rw [length_mem_aloList m _ ((mem_aloList m _).2 ⟨i, ‹_›, rfl⟩)] at hlen
  have hmem : var (m : Int) (1 + (i : Int)) (1 + ((0 : Nat) : Int))
      ∈ (List.range m).flatMap fun j => [var (m : Int) (1 + (i : Int)) (1 + (j : Int))] := by
    simp only [List.mem_flatMap, List.mem_range, List.mem_singleton]
    exact ⟨0, by omega, rfl⟩
  have hneg := of_decide_eq_true (hall _ hmem)
  have p1 := var_cast_pos m i 0
  omega

theorem var_bijOn (n : Int) (hn : 1 ≤ n) :
    Set.BijOn (fun p : Int × Int => var n p.1 p.2) (Set.Icc 1 (n + 1) ×ˢ Set.Icc 1 n)
      (Set.Icc 1 (n * (n + 1))) := by
  refine ⟨?_, ?_, ?_⟩
  · rintro ⟨i, j⟩ ⟨⟨hi1, hi2⟩, ⟨hj1, hj2⟩⟩
    simp only [Set.mem_Icc, var] at *
    have h1 : 0 ≤ n * (i - 1) := mul_nonneg (by omega) (by omega)
    have h2 : n * (i - 1) ≤ n * n := mul_le_mul_of_nonneg_left (by omega) (by omega)
    constructor
    · omega
    · rw [mul_add, mul_one]
      omega
  · rintro ⟨i, j⟩ ⟨⟨hi1, hi2⟩, ⟨hj1, hj2⟩⟩ ⟨i2, j2⟩ ⟨⟨hi3, hi4⟩, ⟨hj3, hj4⟩⟩ h
    simp only [Set.mem_Icc, var] at *
    have hi : i = i2 := by
      by_contra hne
      rcases lt_or_gt_of_ne hne with hlt | hlt
      · have h3 : n * 1 ≤ n * (i2 - i) := mul_le_mul_of_nonneg_left (by omega) (by omega)
        have h4 : n * (i2 - i) = n * (i2 - 1) - n * (i - 1) := by ring
        omega
      · have h3 : n * 1 ≤ n * (i - i2) := mul_le_mul_of_nonneg_left (by omega) (by omega)
        have h4 : n * (i - i2) = n * (i - 1) - n * (i2 - 1) := by ring
        omega
    subst hi
    have hj : j = j2 := by omega
    rw [hj]
  · intro v hv
    simp only [Set.mem_Icc] at hv
    obtain ⟨hv1, hv2⟩ := hv
    have hpos : 0 < n := by omega
    have hd := Int.ediv_add_emod (v - 1) n
    have hm1 := Int.emod_nonneg (v - 1) (by omega : n ≠ 0)
    have hm2 := Int.emod_lt_of_pos (v - 1) hpos
    have hq1 : 0 ≤ (v - 1) / n := Int.ediv_nonneg (by omega) (by omega)
    have hq2 : (v - 1) / n < n + 1 := Int.ediv_lt_of_lt_mul hpos (by rw [mul_comm]; omega)
    refine ⟨((v - 1) / n + 1, (v - 1) % n + 1), ⟨⟨?_, ?_⟩, ⟨?_, ?_⟩⟩, ?_⟩
    · show 1 ≤ (v - 1) / n + 1
      omega
    · show (v - 1) / n + 1 ≤ n + 1
      omega
    · show 1 ≤ (v - 1) % n + 1
      omega
    · show (v - 1) % n + 1 ≤ n
      omega
    · show var n ((v - 1) / n + 1) ((v - 1) % n + 1) = v
      simp only [var]
      have e : (v - 1) / n + 1 - 1 = (v - 1) / n := by ring
      rw [e]
      omega

theorem natAbs_mem_clauses (m : Nat) (hm : 1 ≤ m) (v : Nat) :
    (∃ c ∈ amoList m ++ aloList m, ∃ l ∈ c, l.natAbs = v) ↔ 1 ≤ v ∧ v ≤ m * (m + 1) := by
  have hV : ((m * (m + 1) : Nat) : Int) = (m : Int) * ((m : Int) + 1) := by
    push_cast
    rfl
  constructor
  · rintro ⟨c, hc, l, hl, rfl⟩
    have h := lit_bounds_cast m c hc l hl
    rw [← hV, Int.abs_eq_natAbs] at h
    constructor
    · exact_mod_cast h.1
    · exact_mod_cast h.2
  · rintro ⟨h1, h2⟩
    have hq : (v - 1) / m < m + 1 :=
      Nat.div_lt_of_lt_mul (by omega)
    have hr : (v - 1) % m < m := Nat.mod_lt _ (by omega)
    have hd := Nat.div_add_mod (v - 1) m
    refine ⟨_, List.mem_append_right _ ((mem_aloList m _).2 ⟨(v - 1) / m, hq, rfl⟩),
      var (m : Int) (1 + (((v - 1) / m : Nat) : Int)) (1 + (((v - 1) % m : Nat) : Int)), ?_, ?_⟩
    · simp only [List.mem_flatMap, List.mem_range, List.mem_singleton]
      exact ⟨(v - 1) % m, hr, rfl⟩
    · rw [var_cast, Int.natAbs_ofNat]
      omega

theorem afterProblem_generate (n : Int) :
    afterProblem (generateZ n) = atMostOneZ n ++ atLeastOneZ n := by
  simp [generateZ, headerZ, afterProblem, Out.isProblem]

theorem exists_falsified_clause (m : Nat) (σ : Int → Bool) :
    ∃ c ∈ amoList m ++ aloList m, ∀ l ∈ c, litTrue σ l = false := by
  by_contra hno
  push_neg at hno
  have hole : ∀ i : Fin (m + 1), ∃ j : Fin m,
      σ (var m (1 + (i : Nat)) (1 + (j : Nat))) = true := by
    intro i
    obtain ⟨l, hl, hlt⟩ := hno _ (List.mem_append_right _
      ((mem_aloList m _).2 ⟨i, i.isLt, rfl⟩))
    simp only [List.mem_flatMap, List.mem_range, List.mem_singleton] at hl
    obtain ⟨j, hj, rfl⟩ := hl
    refine ⟨⟨j, hj⟩, ?_⟩
    have hp := var_cast_pos m i j
    simpa [litTrue, hp] using hlt
  choose f hf using hole
  obtain ⟨a, b, hab, hfab⟩ := Fintype.exists_ne_map_eq_of_card_lt f (by simp)
  have key : ∀ a b : Fin (m + 1), (a : Nat) < b → f a = f b → False := by
    intro a b hlt hfab
    have ha := hf a
    have hb := hf b
    rw [← hfab] at hb
    have e : (1 : Int) + ((a : Nat) : Int) + 1 + ((b - a - 1 : Nat) : Int)
        = 1 + ((b : Nat) : Int) := by omega
    have hmem : [-(var m (1 + ((a : Nat) : Int)) (1 + ((f a : Nat) : Int))),
        -(var m (1 + ((a : Nat) : Int) + 1 + ((b - a - 1 : Nat) : Int))
          (1 + ((f a : Nat) : Int)))] ∈ amoList m :=
      (mem_amoList m _).2 ⟨f a, (f a).isLt, a, by omega, b - a - 1, by omega, rfl⟩
    obtain ⟨l, hl, hlt⟩ := hno _ (List.mem_append_left _ hmem)
    have hp1 := var_cast_pos m a (f a)
    have hp2 := var_cast_pos m b (f a)
    rw [e] at hl
    simp only [List.mem_cons, List.mem_singleton, List.not_mem_nil, or_false] at hl
    rcases hl with rfl | rfl
    · have hn1 : ¬ (0 < -(var m (1 + ((a : Nat) : Int)) (1 + ((f a : Nat) : Int)))) := by omega
      simp [litTrue, hn1, ha] at hlt
    · have hn2 : ¬ (0 < -(var m (1 + ((b : Nat) : Int)) (1 + ((f a : Nat) : Int)))) := by omega
      simp [litTrue, hn2, hb] at hlt
  rcases Nat.lt_or_gt_of_ne (fun h => hab (Fin.ext h)) with h | h
  · exact key a b h hfab
  · exact key b a h hfab.symm

/-! ## The instance over the integers -/

theorem exact_count (n : Int) (hn : 1 ≤ n) :
    ∃ v c : Int, (generateZ n).filter Out.isProblem = [Out.problem v c] ∧
      c = (n + 1) + n * (n * (n + 1) / 2) ∧
      (((afterProblem (generateZ n)).map Out.newlines).sum : Int) = c ∧
      ((clausesOf (afterProblem (generateZ n))).length : Int) = c := by
  obtain ⟨m, _, rfl⟩ := exists_nat_of_one_le n hn
  refine ⟨_, _, filter_isProblem_generate _, ?_, ?_, ?_⟩
  · rw [tdiv_cast]
    push_cast
    rfl
  · rw [afterProblem_generate, List.map_append, List.sum_append, newlines_atMostOne,
      newlines_atLeastOne, tdiv_cast]
    push_cast
    ring
  · rw [afterProblem_generate, clausesOf_body, List.length_append, length_amoList,
      length_aloList, tdiv_cast]
    push_cast
    ring

theorem exact_problem (n : Int) (hn : 1 ≤ n) :
    (generateZ n).filter Out.isProblem
      = [Out.problem (n * (n + 1)) ((n + 1) + n * (n * (n + 1) / 2))] := by
  obtain ⟨m, _, rfl⟩ := exists_nat_of_one_le n hn
  rw [filter_isProblem_generate, tdiv_cast, mul_comm ((m : Int) + 1) (m : Int)]
  push_cast
  rfl

theorem exact_at_most_one (n : Int) (hn : 1 ≤ n) :
    ∃ T : List (Int × Int × Int),
      T.Pairwise lexLt ∧
      (∀ j i k : Int, (j, i, k) ∈ T ↔ 1 ≤ j ∧ j ≤ n ∧ 1 ≤ i ∧ i < k ∧ k ≤ n + 1) ∧
      (clausesZ n).take (n * (n * (n + 1) / 2)).toNat
        = T.map (fun p => [-(n * (p.2.1 - 1) + p.1), -(n * (p.2.2 - 1) + p.1)]) := by
  obtain ⟨m, _, rfl⟩ := exists_nat_of_one_le n hn
  refine ⟨amoTriples m, pairwise_amoTriples m, mem_amoTriples m, ?_⟩
  rw [clauses_cast, amo_count_cast, ← amoList_eq_map]
  exact List.take_left' (length_amoList m)

theorem exact_at_least_one (n : Int) (hn : 1 ≤ n) :
    (clausesZ n).drop (n * (n * (n + 1) / 2)).toNat
        = (upTo (n + 1)).map (fun i => (upTo n).map (fun j => n * (i - 1) + j)) ∧
      (((clausesZ n).drop (n * (n * (n + 1) / 2)).toNat).length : Int) = n + 1 ∧
      ∀ c ∈ (clausesZ n).drop (n * (n * (n + 1) / 2)).toNat,
        (c.length : Int) = n ∧ ∀ l ∈ c, 0 < l := by
  obtain ⟨m, _, rfl⟩ := exists_nat_of_one_le n hn
  have hd : (clausesZ (m : Int)).drop ((m : Int) * ((m : Int) * ((m : Int) + 1) / 2)).toNat
      = aloList m := by
    rw [clauses_cast, amo_count_cast]
    exact List.drop_left' (length_amoList m)
  rw [hd]
  refine ⟨aloList_eq_map m, ?_, ?_⟩
  · rw [length_aloList]
    push_cast
    rfl
  · intro c hc
    obtain ⟨i, _, rfl⟩ := (mem_aloList m c).1 hc
    refine ⟨?_, ?_⟩
    · simp only [length_flatMap_eq, List.length_singleton, sum_map_const_range, Nat.mul_one]
    · intro l hl
      simp only [List.mem_flatMap, List.mem_range, List.mem_singleton] at hl
      obtain ⟨j, _, rfl⟩ := hl
      exact var_cast_pos m i j

theorem exact_bounds (n : Int) (hn : 1 ≤ n) :
    ∀ c ∈ clausesZ n, ∀ l ∈ c, 1 ≤ |l| ∧ |l| ≤ n * (n + 1) := by
  obtain ⟨m, _, rfl⟩ := exists_nat_of_one_le n hn
  rw [clauses_cast]
  exact lit_bounds_cast m

theorem exact_variables (n : Int) (hn : 1 ≤ n) :
    (∀ v : Int, (∃ c ∈ clausesZ n, ∃ l ∈ c, |l| = v) ↔ 1 ≤ v ∧ v ≤ n * (n + 1)) ∧
      ((((clausesZ n).flatten.map Int.natAbs).toFinset.card : Nat) : Int) = n * (n + 1) ∧
      Set.BijOn (fun p : Int × Int => var n p.1 p.2) (Set.Icc 1 (n + 1) ×ˢ Set.Icc 1 n)
        (Set.Icc 1 (n * (n + 1))) := by
  refine ⟨?_, ?_, var_bijOn n hn⟩
  · obtain ⟨m, hm, rfl⟩ := exists_nat_of_one_le n hn
    have hV : ((m * (m + 1) : Nat) : Int) = (m : Int) * ((m : Int) + 1) := by
      push_cast
      rfl
    rw [clauses_cast, ← hV]
    intro v
    constructor
    · rintro ⟨c, hc, l, hl, rfl⟩
      have h := (natAbs_mem_clauses m hm l.natAbs).1 ⟨c, hc, l, hl, rfl⟩
      rw [Int.abs_eq_natAbs]
      constructor
      · exact_mod_cast h.1
      · exact_mod_cast h.2
    · rintro ⟨h1, h2⟩
      have h2n : v.toNat ≤ m * (m + 1) := by omega
      obtain ⟨c, hc, l, hl, hv⟩ := (natAbs_mem_clauses m hm v.toNat).2 ⟨by omega, h2n⟩
      refine ⟨c, hc, l, hl, ?_⟩
      rw [Int.abs_eq_natAbs, hv]
      omega
  · obtain ⟨m, hm, rfl⟩ := exists_nat_of_one_le n hn
    have hV : ((m * (m + 1) : Nat) : Int) = (m : Int) * ((m : Int) + 1) := by
      push_cast
      rfl
    have hset : ((clausesZ (m : Int)).flatten.map Int.natAbs).toFinset
        = Finset.Icc 1 (m * (m + 1)) := by
      ext v
      rw [List.mem_toFinset, Finset.mem_Icc, ← natAbs_mem_clauses m hm v, clauses_cast]
      simp only [List.mem_map, List.mem_flatten]
      constructor
      · rintro ⟨l, ⟨c, hc, hl⟩, rfl⟩
        exact ⟨c, hc, l, hl, rfl⟩
      · rintro ⟨c, hc, l, hl, rfl⟩
        exact ⟨l, ⟨c, hc, hl⟩, rfl⟩
    rw [hset, Nat.card_Icc, ← hV]
    simp

theorem exact_positive (n : Int) (hn : 1 ≤ n) :
    (((clausesZ n).filter (fun c => c.all fun l => decide (0 < l))).length : Int) = n + 1 ∧
      ∀ c ∈ (clausesZ n).filter (fun c => c.all fun l => decide (0 < l)),
        (c.length : Int) = n := by
  obtain ⟨m, _, rfl⟩ := exists_nat_of_one_le n hn
  rw [clauses_cast, List.filter_append, filter_pos_amoList, filter_pos_aloList,
    List.nil_append, length_aloList]
  refine ⟨by push_cast; rfl, ?_⟩
  intro c hc
  rw [length_mem_aloList m c hc]

theorem exact_negative (n : Int) (hn : 1 ≤ n) :
    (((clausesZ n).countP
        (fun c => decide (c.length = 2) && c.all fun l => decide (l < 0)) : Nat) : Int)
      = n * (n * (n + 1) / 2) := by
  obtain ⟨m, _, rfl⟩ := exists_nat_of_one_le n hn
  rw [clauses_cast, List.countP_append, countP_neg_amoList, countP_neg_aloList,
    length_amoList]
  push_cast
  rfl

/-! ## The text of the output -/

theorem digitChar_isDigit (d : Nat) (h : d < 10) : (Nat.digitChar d).isDigit = true := by
  interval_cases d <;> decide

theorem toDigitsCore_isDigit (fuel n : Nat) (ds : List Char)
    (h : ∀ c ∈ ds, c.isDigit = true) :
    ∀ c ∈ Nat.toDigitsCore 10 fuel n ds, c.isDigit = true := by
  induction fuel generalizing n ds with
  | zero => simpa [Nat.toDigitsCore] using h
  | succ fuel ih =>
    have hd : (Nat.digitChar (n % 10)).isDigit = true :=
      digitChar_isDigit _ (Nat.mod_lt _ (by decide))
    have h2 : ∀ c ∈ Nat.digitChar (n % 10) :: ds, c.isDigit = true := by
      intro c hc
      rcases List.mem_cons.1 hc with rfl | hc
      · exact hd
      · exact h c hc
    unfold Nat.toDigitsCore
    simp only
    split
    · exact h2
    · exact ih _ _ h2

theorem toDigitsCore_ne_nil (fuel n : Nat) (ds : List Char) (h : ds ≠ [] ∨ 0 < fuel) :
    Nat.toDigitsCore 10 fuel n ds ≠ [] := by
  induction fuel generalizing n ds with
  | zero =>
    rcases h with h | h
    · simpa [Nat.toDigitsCore] using h
    · omega
  | succ fuel ih =>
    unfold Nat.toDigitsCore
    simp only
    split
    · simp
    · exact ih _ _ (Or.inl (by simp))

theorem fmtInt_ofNat (k : Nat) : fmtInt (k : Int) = Nat.toDigits 10 k := rfl

theorem fmtInt_neg_succ (k : Nat) :
    fmtInt (-((k + 1 : Nat) : Int)) = '-' :: fmtInt ((k + 1 : Nat) : Int) := rfl

theorem fmtInt_neg_of_pos (a : Int) (h : 0 < a) : fmtInt (-a) = '-' :: fmtInt a := by
  obtain ⟨k, rfl⟩ : ∃ k : Nat, a = ((k + 1 : Nat) : Int) := ⟨(a - 1).toNat, by omega⟩
  exact fmtInt_neg_succ k

theorem fmtInt_chars (x : Int) : ∀ c ∈ fmtInt x, c = '-' ∨ c.isDigit = true := by
  intro c hc
  rcases Int.lt_or_le x 0 with h | h
  · have e : x = -(-x) := by omega
    rw [e, fmtInt_neg_of_pos (-x) (by omega)] at hc
    obtain ⟨k, hk⟩ : ∃ k : Nat, -x = (k : Int) := ⟨(-x).toNat, by omega⟩
    rw [hk, fmtInt_ofNat] at hc
    rcases List.mem_cons.1 hc with rfl | hc
    · exact Or.inl rfl
    · exact Or.inr (toDigitsCore_isDigit _ _ [] (by simp) c hc)
  · obtain ⟨k, rfl⟩ : ∃ k : Nat, x = (k : Int) := ⟨x.toNat, by omega⟩
    rw [fmtInt_ofNat] at hc
    exact Or.inr (toDigitsCore_isDigit _ _ [] (by simp) c hc)

theorem fmtInt_ne_nil (x : Int) : fmtInt x ≠ [] := by
  rcases Int.lt_or_le x 0 with h | h
  · have e : x = -(-x) := by omega
    rw [e, fmtInt_neg_of_pos (-x) (by omega)]
    simp
  · obtain ⟨k, rfl⟩ : ∃ k : Nat, x = (k : Int) := ⟨x.toNat, by omega⟩
    rw [fmtInt_ofNat]
    exact toDigitsCore_ne_nil _ _ [] (Or.inr (Nat.succ_pos _))

theorem fmtInt_no_newline (x : Int) : '\n' ∉ fmtInt x := by
  intro h
  rcases fmtInt_chars x _ h with h | h
  · exact absurd h (by decide)
  · exact absurd h (by decide)

theorem fmtInt_head (x : Int) :
    ∃ ch, (fmtInt x).head? = some ch ∧ (ch = '-' ∨ ch.isDigit = true) := by
  have hne := fmtInt_ne_nil x
  have hch := fmtInt_chars x
  cases hx : fmtInt x with
  | nil => exact absurd hx hne
  | cons ch t =>
    rw [hx] at hch
    exact ⟨ch, rfl, hch ch (List.mem_cons_self _ _)⟩

theorem clauseLine_no_newline (c : List Int) : '\n' ∉ clauseLine c := by
  unfold clauseLine
  intro h
  rcases List.mem_append.1 h with h | h
  · simp only [List.mem_flatMap, List.mem_append, List.mem_singleton] at h
    obtain ⟨l, _, h | h⟩ := h
    · exact fmtInt_no_newline l h
    · exact absurd h (by decide)
  · simp only [List.mem_singleton] at h
    exact absurd h (by decide)

theorem clauseLine_head (c : List Int) :
    ∃ ch, (clauseLine c).head? = some ch ∧ (ch = '-' ∨ ch.isDigit = true) := by
  cases c with
  | nil => exact ⟨'0', rfl, Or.inr (by decide)⟩
  | cons l c =>
    obtain ⟨ch, hh, hc⟩ := fmtInt_head l
    refine ⟨ch, ?_, hc⟩
    cases hx : fmtInt l with
    | nil => exact absurd hx (fmtInt_ne_nil l)
    | cons a t =>
      rw [hx] at hh
      simp [clauseLine, hx] at hh ⊢
      exact hh

theorem splitLines_append_newline (cur line rest : List Char) (h : '\n' ∉ line) :
    splitLines cur (line ++ '\n' :: rest) = (cur ++ line) :: splitLines [] rest := by
  induction line generalizing cur with
  | nil => simp [splitLines]
  | cons c line ih =>
    have hc : c ≠ '\n' := fun e => h (e ▸ List.mem_cons_self _ _)
    have hl : '\n' ∉ line := fun e => h (List.mem_cons_of_mem _ e)
    simp [splitLines, hc, ih _ hl]

theorem splitLines_flatMap (ls : List (List Char)) (rest : List Char)
    (h : ∀ l ∈ ls, '\n' ∉ l) :
    splitLines [] (ls.flatMap (fun l => l ++ ['\n']) ++ rest)
      = ls ++ splitLines [] rest := by
  induction ls with
  | nil => simp
  | cons l ls ih =>
    have h1 : '\n' ∉ l := h l (List.mem_cons_self _ _)
    have h2 : ∀ d ∈ ls, '\n' ∉ d := fun d hd => h d (List.mem_cons_of_mem _ hd)
    rw [List.flatMap_cons, List.append_assoc, List.append_assoc, List.singleton_append,
      splitLines_append_newline [] l _ h1, ih h2]
    simp

theorem text_negPair (a b : Int) (ha : 0 < a) (hb : 0 < b) :
    (Out.negPair a b).text = clauseLine [-a, -b] ++ ['\n'] := by
  simp [Out.text, clauseLine, fmtInt_neg_of_pos a ha, fmtInt_neg_of_pos b hb]

theorem text_atMostOne (m : Nat) :
    textOf (atMostOneZ (m : Int)) = (amoList m).flatMap (fun c => clauseLine c ++ ['\n']) := by
  simp only [textOf, atMostOneZ, amoList, forLoop_eq_flatMap, List.flatMap_assoc]
  have e1 : ((m : Int) + 1 - 1).toNat = m := by omega
  rw [e1]
  refine List.flatMap_congr ?_
  intro j _
  refine List.flatMap_congr ?_
  intro i _
  have e2 : ((m : Int) + 1 + 1 - (1 + (i : Int) + 1)).toNat = m - i := by omega
  rw [e2]
  refine List.flatMap_congr ?_
  intro t _
  have p1 := var_cast_pos m i j
  have p2 := var_cast_pos2 m i t j
  simp only [var] at p1 p2
  simp only [List.flatMap_cons, List.flatMap_nil, List.append_nil, var]
  exact text_negPair _ _ p1 p2

theorem text_atLeastOne (m : Nat) :
    textOf (atLeastOneZ (m : Int)) = (aloList m).flatMap (fun c => clauseLine c ++ ['\n']) := by
  simp only [textOf, atLeastOneZ, aloList, forLoop_eq_flatMap, List.flatMap_assoc]
  have e1 : ((m : Int) + 1 - 1).toNat = m := by omega
  have e2 : ((m : Int) + 1 + 1 - 1).toNat = m + 1 := by omega
  rw [e1, e2]
  refine List.flatMap_congr ?_
  intro i _
  simp [Out.text, clauseLine, var, List.flatMap_assoc]

theorem text_body (m : Nat) :
    textOf (atMostOneZ (m : Int) ++ atLeastOneZ (m : Int))
      = (amoList m ++ aloList m).flatMap (fun c => clauseLine c ++ ['\n']) := by
  have h := text_atMostOne m
  have h2 := text_atLeastOne m
  unfold textOf at h h2 ⊢
  rw [List.flatMap_append, List.flatMap_append, h, h2]

theorem lines_body (m : Nat) :
    linesOf (textOf (atMostOneZ (m : Int) ++ atLeastOneZ (m : Int)))
      = (amoList m ++ aloList m).map clauseLine := by
  rw [text_body]
  have h := splitLines_flatMap ((amoList m ++ aloList m).map clauseLine) [] (by
    intro l hl
    obtain ⟨c, _, rfl⟩ := List.mem_map.1 hl
    exact clauseLine_no_newline c)
  rw [List.append_nil, List.flatMap_map] at h
  unfold linesOf
  rw [h]
  simp [splitLines]

theorem oneLine_of_eq (t line : List Char) (h : t = line ++ ['\n']) (hl : '\n' ∉ line) :
    t.getLast? = some '\n' ∧ '\n' ∉ t.dropLast ∧ t.dropLast = line := by
  subst h
  refine ⟨by simp, ?_, by simp⟩
  rw [List.dropLast_concat]
  exact hl

theorem title_text (a b c : Int) :
    (Out.title a b c).text
      = ("c pigeon-".toList ++ fmtInt a ++ ": placing ".toList ++ fmtInt b
          ++ " pigeons into ".toList ++ fmtInt c ++ " holes".toList) ++ ['\n'] := by
  have e : " holes\n".toList = " holes".toList ++ ['\n'] := by decide
  unfold Out.text
  rw [e]
  simp only [List.append_assoc]

theorem problem_text (v c : Int) :
    (Out.problem v c).text
      = ("p cnf ".toList ++ fmtInt v ++ " ".toList ++ fmtInt c) ++ ['\n'] := by
  have e : "\n".toList = ['\n'] := by decide
  unfold Out.text
  rw [e]

theorem title_oneLine (a b c : Int) :
    (Out.title a b c).text.getLast? = some '\n' ∧ '\n' ∉ (Out.title a b c).text.dropLast ∧
      (Out.title a b c).text.dropLast.head? = some 'c' := by
  have h := oneLine_of_eq _ _ (title_text a b c) (by
    simp only [List.mem_append, not_or]
    exact ⟨⟨⟨⟨⟨⟨by decide, fmtInt_no_newline a⟩, by decide⟩, fmtInt_no_newline b⟩, by decide⟩,
      fmtInt_no_newline c⟩, by decide⟩)
  refine ⟨h.1, h.2.1, ?_⟩
  rw [h.2.2]
  rfl

theorem problem_oneLine (v c : Int) :
    (Out.problem v c).text.getLast? = some '\n' ∧ '\n' ∉ (Out.problem v c).text.dropLast ∧
      (Out.problem v c).text.dropLast
        = "p cnf ".toList ++ fmtInt v ++ " ".toList ++ fmtInt c := by
  exact oneLine_of_eq _ _ (problem_text v c) (by
    simp only [List.mem_append, not_or]
    exact ⟨⟨⟨by decide, fmtInt_no_newline v⟩, by decide⟩, fmtInt_no_newline c⟩)

theorem splitLines_oneLiners (outs : List Out) (rest : List Char)
    (h : ∀ o ∈ outs, o.text.getLast? = some '\n' ∧ '\n' ∉ o.text.dropLast) :
    splitLines [] (textOf outs ++ rest)
      = outs.map (fun o => o.text.dropLast) ++ splitLines [] rest := by
  induction outs with
  | nil => simp [textOf]
  | cons o outs ih =>
    obtain ⟨h1, h2⟩ := h o (List.mem_cons_self _ _)
    have h3 : ∀ p ∈ outs, p.text.getLast? = some '\n' ∧ '\n' ∉ p.text.dropLast :=
      fun p hp => h p (List.mem_cons_of_mem _ hp)
    have e : o.text = o.text.dropLast ++ ['\n'] :=
      (List.dropLast_append_getLast? _ h1).symm
    have ih2 := ih h3
    unfold textOf at ih2 ⊢
    rw [List.flatMap_cons, List.append_assoc]
    conv_lhs => rw [e]
    rw [List.append_assoc, List.singleton_append, splitLines_append_newline [] _ _ h2, ih2]
    simp

theorem header_comments (n : Int) :
    ∀ o ∈ (headerZ n).dropLast,
      (o.text.getLast? = some '\n' ∧ '\n' ∉ o.text.dropLast) ∧
        o.text.dropLast.head? = some 'c' := by
  intro o ho
  simp only [headerZ, List.dropLast, List.mem_cons, List.mem_singleton, List.not_mem_nil,
    or_false] at ho
  rcases ho with rfl | rfl | rfl | rfl | rfl | rfl | rfl | rfl | rfl | rfl | rfl | rfl | rfl
    | rfl | rfl
  · exact ⟨⟨(title_oneLine _ _ _).1, (title_oneLine _ _ _).2.1⟩, (title_oneLine _ _ _).2.2⟩
  all_goals decide

theorem header_split (n : Int) :
    headerZ n = (headerZ n).dropLast
      ++ [Out.problem ((n + 1) * n) ((n + 1) + n * Int.tdiv (n * (n + 1)) 2)] := rfl

theorem lines_generate (n : Int) :
    linesOf (textOf (generateZ n))
      = (headerZ n).dropLast.map (fun o => o.text.dropLast)
        ++ [ "p cnf ".toList ++ fmtInt ((n + 1) * n) ++ " ".toList
              ++ fmtInt ((n + 1) + n * Int.tdiv (n * (n + 1)) 2) ]
        ++ linesOf (textOf (atMostOneZ n ++ atLeastOneZ n)) := by
  have e : textOf (generateZ n)
      = textOf ((headerZ n).dropLast)
        ++ (textOf [Out.problem ((n + 1) * n) ((n + 1) + n * Int.tdiv (n * (n + 1)) 2)]
          ++ textOf (atMostOneZ n ++ atLeastOneZ n)) := by
    unfold generateZ
    rw [List.append_assoc]
    conv_lhs => rw [header_split]
    simp only [textOf, List.flatMap_append, List.append_assoc]
  unfold linesOf
  rw [e, splitLines_oneLiners _ _ (fun o ho => (header_comments n o ho).1),
    splitLines_oneLiners _ _ (by
      intro o ho
      rw [List.mem_singleton] at ho
      subst ho
      exact ⟨(problem_oneLine _ _).1, (problem_oneLine _ _).2.1⟩)]
  simp only [List.map_cons, List.map_nil, (problem_oneLine _ _).2.2, List.append_assoc]

theorem tdiv_eq_div (n : Int) (hn : 1 ≤ n) :
    Int.tdiv (n * (n + 1)) 2 = n * (n + 1) / 2 :=
  Int.tdiv_eq_ediv (mul_nonneg (by omega) (by omega)) (by norm_num)

theorem clauses_ne_zero (n : Int) (hn : 1 ≤ n) : ∀ c ∈ clausesZ n, ∀ l ∈ c, l ≠ 0 := by
  obtain ⟨m, _, rfl⟩ := exists_nat_of_one_le n hn
  rw [clauses_cast]
  intro c hc
  rcases List.mem_append.1 hc with h | h
  · exact amoList_ne_zero m c h
  · exact aloList_ne_zero m c h

theorem exact_layout (n : Int) (hn : 1 ≤ n) :
    ∃ comments : List (List Char),
      linesOf (textOf (generateZ n))
        = comments
          ++ [ "p cnf ".toList ++ fmtInt (n * (n + 1)) ++ " ".toList
                ++ fmtInt ((n + 1) + n * (n * (n + 1) / 2)) ]
          ++ (clausesZ n).map clauseLine ∧
      (∀ l ∈ comments, l.head? = some 'c') ∧
      (∀ l ∈ (clausesZ n).map clauseLine,
        ∃ ch, l.head? = some ch ∧ (ch = '-' ∨ ch.isDigit = true)) ∧
      (linesOf (textOf (generateZ n))).countP (fun l => l.head? == some 'p') = 1 := by
  have hc : ∀ l ∈ (headerZ n).dropLast.map (fun o => o.text.dropLast),
      l.head? = some 'c' := by
    intro l hl
    obtain ⟨o, ho, rfl⟩ := List.mem_map.1 hl
    exact (header_comments n o ho).2
  have hr : ∀ l ∈ (clausesZ n).map clauseLine,
      ∃ ch, l.head? = some ch ∧ (ch = '-' ∨ ch.isDigit = true) := by
    intro l hl
    obtain ⟨c, _, rfl⟩ := List.mem_map.1 hl
    exact clauseLine_head c
  have hlines : linesOf (textOf (generateZ n))
      = (headerZ n).dropLast.map (fun o => o.text.dropLast)
        ++ [ "p cnf ".toList ++ fmtInt (n * (n + 1)) ++ " ".toList
              ++ fmtInt ((n + 1) + n * (n * (n + 1) / 2)) ]
        ++ (clausesZ n).map clauseLine := by
    rw [lines_generate, tdiv_eq_div n hn, mul_comm (n + 1) n]
    obtain ⟨m, _, rfl⟩ := exists_nat_of_one_le n hn
    rw [lines_body, clauses_cast]
  refine ⟨_, hlines, hc, hr, ?_⟩
  rw [hlines, List.countP_append, List.countP_append]
  have h1 : ((headerZ n).dropLast.map (fun o => o.text.dropLast)).countP
      (fun l => l.head? == some 'p') = 0 := by
    rw [List.countP_eq_zero]
    intro l hl
    rw [hc l hl]
    decide
  have h2 : ((clausesZ n).map clauseLine).countP (fun l => l.head? == some 'p') = 0 := by
    rw [List.countP_eq_zero]
    intro l hl
    obtain ⟨ch, hh, hd⟩ := hr l hl
    rw [hh]
    rcases hd with rfl | hd
    · decide
    · intro hp
      have e : ch = 'p' := by simpa using hp
      rw [e] at hd
      exact absurd hd (by decide)
  rw [h1, h2]
  rfl

theorem exact_text (n : Int) (hn : 1 ≤ n) :
    textOf (afterProblem (generateZ n))
        = (clausesZ n).flatMap
            (fun c => c.flatMap (fun l => fmtInt l ++ [' ']) ++ ['0'] ++ ['\n']) ∧
      linesOf (textOf (afterProblem (generateZ n)))
        = (clausesZ n).map (fun c => c.flatMap (fun l => fmtInt l ++ [' ']) ++ ['0']) ∧
      ∀ c ∈ clausesZ n, ∀ l ∈ c, l ≠ 0 := by
  refine ⟨?_, ?_, clauses_ne_zero n hn⟩
  · obtain ⟨m, _, rfl⟩ := exists_nat_of_one_le n hn
    rw [afterProblem_generate, text_body, clauses_cast]
    rfl
  · obtain ⟨m, _, rfl⟩ := exists_nat_of_one_le n hn
    rw [afterProblem_generate, lines_body, clauses_cast]
    rfl

/-! ## The range of the arithmetic -/

theorem mem_forLoop {α : Type} (lo hi : Int) (body : Int → List α) (x : α) :
    x ∈ forLoop lo hi body ↔ ∃ v, lo ≤ v ∧ v ≤ hi ∧ x ∈ body v := by
  rw [forLoop_eq_flatMap, List.mem_flatMap]
  constructor
  · rintro ⟨s, hs, hx⟩
    rw [List.mem_range] at hs
    exact ⟨lo + s, by omega, by omega, hx⟩
  · rintro ⟨v, h1, h2, hx⟩
    refine ⟨(v - lo).toNat, List.mem_range.2 (by omega), ?_⟩
    have e : lo + ((v - lo).toNat : Int) = v := by omega
    rw [e]
    exact hx

theorem forall_mem_forLoop {α : Type} (P : α → Prop) (lo hi : Int) (body : Int → List α) :
    (∀ x ∈ forLoop lo hi body, P x) ↔ ∀ v, lo ≤ v → v ≤ hi → ∀ x ∈ body v, P x := by
  constructor
  · intro h v h1 h2 x hx
    exact h x ((mem_forLoop lo hi body x).2 ⟨v, h1, h2, hx⟩)
  · intro h x hx
    obtain ⟨v, h1, h2, hv⟩ := (mem_forLoop lo hi body x).1 hx
    exact h v h1 h2 x hv

theorem evaluated_inInt32 (n : Int) (h1 : 1 ≤ n) (h2 : n ≤ 1625) :
    ∀ x ∈ evaluated n, inInt32 x := by
  have hq := tdiv_eq_div n h1
  have e : (n + 1) * n = n * (n + 1) := by ring
  have hp0 : 0 ≤ n * (n + 1) := mul_nonneg (by omega) (by omega)
  have hp1 : n * (n + 1) ≤ 1625 * 1626 := by nlinarith
  have hq0 : 0 ≤ n * (n + 1) / 2 := Int.ediv_nonneg hp0 (by norm_num)
  have hq1 : n * (n + 1) / 2 ≤ 1321125 := by omega
  have hr0 : 0 ≤ n * (n * (n + 1) / 2) := mul_nonneg (by omega) hq0
  have hr1 : n * (n * (n + 1) / 2) ≤ 1625 * 1321125 :=
    mul_le_mul h2 hq1 hq0 (by norm_num)
  unfold evaluated
  rw [hq, e]
  simp only [List.forall_mem_append, forall_mem_forLoop, List.forall_mem_cons,
    List.not_mem_nil, false_imp_iff, implies_true, and_true, inInt32]
  refine ⟨⟨by omega, ?_⟩, ?_⟩
  · intro j hj1 hj2
    refine ⟨?_, by omega⟩
    intro i hi1 hi2
    have a0 : 0 ≤ n * (i - 1) := mul_nonneg (by omega) (by omega)
    have a1 : n * (i - 1) ≤ 1625 * 1625 := mul_le_mul h2 (by omega) (by omega) (by norm_num)
    refine ⟨⟨by omega, ?_⟩, by omega⟩
    intro k hk1 hk2
    have b0 : 0 ≤ n * (k - 1) := mul_nonneg (by omega) (by omega)
    have b1 : n * (k - 1) ≤ 1625 * 1625 := mul_le_mul h2 (by omega) (by omega) (by norm_num)
    omega
  · intro i hi1 hi2
    have a0 : 0 ≤ n * (i - 1) := mul_nonneg (by omega) (by omega)
    have a1 : n * (i - 1) ≤ 1625 * 1625 := mul_le_mul h2 (by omega) (by omega) (by norm_num)
    refine ⟨⟨by omega, ?_⟩, by omega⟩
    intro j hj1 hj2
    omega

theorem wrap32_of_inInt32 (x : Int) (h : inInt32 x) : wrap32 x = x := by
  unfold inInt32 at h
  unfold wrap32
  omega

theorem wrap32_le (x : Int) : wrap32 x ≤ 2147483647 := by
  unfold wrap32
  omega

theorem clauseCount_mem_evaluated (n : Int) : clauseCount n ∈ evaluated n := by
  unfold evaluated
  refine List.mem_append_left _ (List.mem_append_left _ ?_)
  simp only [List.mem_cons, clauseCount, true_or, or_true]

theorem clauseCount_large (n : Int) (hn : 1626 ≤ n) :
    2147483647 < (n + 1) + n * (n * (n + 1) / 2) := by
  have hp : 1626 * 1627 ≤ n * (n + 1) := by nlinarith
  have hq : 1322751 ≤ n * (n + 1) / 2 := by omega
  have hr : 1626 * 1322751 ≤ n * (n * (n + 1) / 2) :=
    mul_le_mul hn hq (by norm_num) (by omega)
  omega

theorem problemLine32_eq (n : Int) (h1 : 1 ≤ n) (h2 : n ≤ 1625) :
    problemLine32 n = Out.problem (n * (n + 1)) ((n + 1) + n * (n * (n + 1) / 2)) := by
  have hall := evaluated_inInt32 n h1 h2
  have hm : ∀ x, x ∈ [n + 1, (n + 1) * n, n * (n + 1), Int.tdiv (n * (n + 1)) 2,
      n * Int.tdiv (n * (n + 1)) 2, (n + 1) + n * Int.tdiv (n * (n + 1)) 2] →
      wrap32 x = x := by
    intro x hx
    refine wrap32_of_inInt32 x (hall x ?_)
    unfold evaluated
    exact List.mem_append_left _ (List.mem_append_left _ hx)
  have w1 : wrap32 (n + 1) = n + 1 := hm _ (by simp)
  have w2 : wrap32 ((n + 1) * n) = (n + 1) * n := hm _ (by simp)
  have w3 : wrap32 (n * (n + 1)) = n * (n + 1) := hm _ (by simp)
  have w4 : wrap32 (Int.tdiv (n * (n + 1)) 2) = Int.tdiv (n * (n + 1)) 2 := hm _ (by simp)
  have w5 : wrap32 (n * Int.tdiv (n * (n + 1)) 2) = n * Int.tdiv (n * (n + 1)) 2 :=
    hm _ (by simp)
  have w6 : wrap32 ((n + 1) + n * Int.tdiv (n * (n + 1)) 2)
      = (n + 1) + n * Int.tdiv (n * (n + 1)) 2 := hm _ (by simp)
  unfold problemLine32
  rw [w1, w2, w3, w4, w5, w6, tdiv_eq_div n h1, mul_comm (n + 1) n]

/-- C17, as stated, fails: `n = 1626` is a positive 32-bit value that passes
validation, and the clause count `(n+1) + n*(n*(n+1)/2)` that `main`
evaluates for it is `2150794753`, outside the range of a 32-bit signed
`int`. -/
theorem arithmetic_overflows :
    (1 : Int) ≤ 1626 ∧ inInt32 1626 ∧
      clauseCount 1626 ∈ evaluated 1626 ∧
      clauseCount 1626 = 2150794753 ∧
      ¬ inInt32 (clauseCount 1626) := by
  refine ⟨by decide, by unfold inInt32; decide, clauseCount_mem_evaluated 1626, by decide, ?_⟩
  have e : clauseCount 1626 = 2150794753 := by decide
  rw [e]
  unfold inInt32
  decide

/-- C17, amended: for every `n` with `1 ≤ n ≤ 1625` every expression that the
generator evaluates stays within the range of a 32-bit signed `int`, so that
its 32-bit value is its value over the integers. -/
theorem arithmetic_in_range (n : Int) (h1 : 1 ≤ n) (h2 : n ≤ 1625) :
    ∀ x ∈ evaluated n, inInt32 x ∧ wrap32 x = x := by
  intro x hx
  have h := evaluated_inInt32 n h1 h2 x hx
  exact ⟨h, wrap32_of_inInt32 x h⟩

theorem arithmetic_in_range_witness :
    (1 : Int) ≤ 2 ∧ (2 : Int) ≤ 1625 ∧ ∀ x ∈ evaluated 2, inInt32 x ∧ wrap32 x = x :=
  ⟨by decide, by decide, arithmetic_in_range 2 (by decide) (by decide)⟩

/-- C19: with 32-bit signed arithmetic, for every `n` with `1 ≤ n ≤ 1625` no
expression evaluated by the generator leaves the range, and the problem line
computed with wrapping arithmetic is the exact one; for `n = 1626` the clause
count is `2150794753`, above `2^31 - 1`; and for every `n ≥ 1626` the clause
count is above `2^31 - 1`, so the problem line computed by the machine is not
the exact one: `1625` is the largest `n` with a correct problem line. -/
theorem overflow_threshold :
    (∀ n : Int, 1 ≤ n → n ≤ 1625 →
        (∀ x ∈ evaluated n, inInt32 x) ∧
        problemLine32 n = Out.problem (n * (n + 1)) ((n + 1) + n * (n * (n + 1) / 2))) ∧
      (clauseCount 1626 ∈ evaluated 1626 ∧ clauseCount 1626 = 2150794753 ∧
        (2147483647 : Int) < clauseCount 1626) ∧
      (∀ n : Int, 1626 ≤ n →
        2147483647 < (n + 1) + n * (n * (n + 1) / 2) ∧
        problemLine32 n
          ≠ Out.problem (n * (n + 1)) ((n + 1) + n * (n * (n + 1) / 2))) := by
  refine ⟨?_, ⟨clauseCount_mem_evaluated 1626, by decide, by decide⟩, ?_⟩
  · intro n h1 h2
    exact ⟨evaluated_inInt32 n h1 h2, problemLine32_eq n h1 h2⟩
  · intro n hn
    have hl := clauseCount_large n hn
    refine ⟨hl, ?_⟩
    intro h
    unfold problemLine32 at h
    injection h with _ hc
    have hw := wrap32_le (wrap32 (n + 1)
      + wrap32 (n * wrap32 (Int.tdiv (wrap32 (n * wrap32 (n + 1))) 2)))
    rw [hc] at hw
    omega

/-! ## Distinct clauses -/

theorem var_cast_shift (m i t j : Nat) :
    var (m : Int) (1 + (i : Int) + 1 + (t : Int)) (1 + (j : Int))
      = var (m : Int) (1 + ((i + 1 + t : Nat) : Int)) (1 + (j : Int)) := by
  congr 1
  push_cast
  ring

theorem var_cast_inj (m a b j j2 : Nat) (hj : j < m) (hj2 : j2 < m)
    (h : var (m : Int) (1 + (a : Int)) (1 + (j : Int))
      = var (m : Int) (1 + (b : Int)) (1 + (j2 : Int))) : a = b ∧ j = j2 := by
  rw [var_cast, var_cast] at h
  have hn : m * a + j + 1 = m * b + j2 + 1 := by exact_mod_cast h
  have hm : 0 < m := by omega
  have ha : (m * a + j) / m = a := by
    rw [Nat.mul_add_div hm, Nat.div_eq_of_lt hj, Nat.add_zero]
  have hb : (m * b + j2) / m = b := by
    rw [Nat.mul_add_div hm, Nat.div_eq_of_lt hj2, Nat.add_zero]
  have e : m * a + j = m * b + j2 := by omega
  have hab : a = b := by
    rw [← ha, ← hb, e]
  subst hab
  exact ⟨rfl, by omega⟩

theorem toFinset_ne_of_mem (c d : List Int) (l : Int) (hc : l ∈ c) (hd : l ∉ d) :
    c.toFinset ≠ d.toFinset := by
  intro h
  have h1 : l ∈ c.toFinset := List.mem_toFinset.2 hc
  rw [h] at h1
  exact hd (List.mem_toFinset.1 h1)

theorem mem_amo_clause (m i t j : Nat) (l : Int)
    (h : l ∈ [-(var (m : Int) (1 + (i : Int)) (1 + (j : Int))),
      -(var (m : Int) (1 + (i : Int) + 1 + (t : Int)) (1 + (j : Int)))]) :
    l = -(var (m : Int) (1 + (i : Int)) (1 + (j : Int)))
      ∨ l = -(var (m : Int) (1 + ((i + 1 + t : Nat) : Int)) (1 + (j : Int))) := by
  rw [← var_cast_shift]
  simpa using h

theorem pairwise_amoList (m : Nat) :
    (amoList m).Pairwise (fun c d => c.toFinset ≠ d.toFinset) := by
  unfold amoList
  refine pairwise_flatMap_range _ _ _ ?_ ?_
  · intro j hj
    refine pairwise_flatMap_range _ _ _ ?_ ?_
    · intro i _
      refine pairwise_flatMap_range _ _ _ ?_ ?_
      · intro t _
        exact List.pairwise_singleton _ _
      · intro t t2 hlt _ x hx y hy
        simp only [List.mem_singleton] at hx hy
        subst hx hy
        refine toFinset_ne_of_mem _ _
          (-(var (m : Int) (1 + (i : Int) + 1 + (t : Int)) (1 + (j : Int)))) (by simp) ?_
        intro hmem
        rw [var_cast_shift m i t j] at hmem
        rcases mem_amo_clause m i t2 j _ hmem with h | h
        · have := (var_cast_inj m _ _ j j hj hj (neg_injective h)).1
          omega
        · have := (var_cast_inj m _ _ j j hj hj (neg_injective h)).1
          omega
    · intro i i2 hlt _ x hx y hy
      simp only [List.mem_flatMap, List.mem_range, List.mem_singleton] at hx hy
      obtain ⟨t, _, rfl⟩ := hx
      obtain ⟨t2, _, rfl⟩ := hy
      refine toFinset_ne_of_mem _ _
        (-(var (m : Int) (1 + (i : Int)) (1 + (j : Int)))) (by simp) ?_
      intro hmem
      rcases mem_amo_clause m i2 t2 j _ hmem with h | h
      · have := (var_cast_inj m _ _ j j hj hj (neg_injective h)).1
        omega
      · have := (var_cast_inj m _ _ j j hj hj (neg_injective h)).1
        omega
  · intro j j2 hlt hj2 x hx y hy
    simp only [List.mem_flatMap, List.mem_range, List.mem_singleton] at hx hy
    obtain ⟨i, _, t, _, rfl⟩ := hx
    obtain ⟨i2, _, t2, _, rfl⟩ := hy
    refine toFinset_ne_of_mem _ _
      (-(var (m : Int) (1 + (i : Int)) (1 + (j : Int)))) (by simp) ?_
    intro hmem
    rcases mem_amo_clause m i2 t2 j2 _ hmem with h | h
    · have := (var_cast_inj m _ _ j j2 (by omega) hj2 (neg_injective h)).2
      omega
    · have := (var_cast_inj m _ _ j j2 (by omega) hj2 (neg_injective h)).2
      omega

theorem pairwise_aloList (m : Nat) (hm : 1 ≤ m) :
    (aloList m).Pairwise (fun c d => c.toFinset ≠ d.toFinset) := by
  unfold aloList
  refine pairwise_flatMap_range _ _ _ ?_ ?_
  · intro i _
    exact List.pairwise_singleton _ _
  · intro i i2 hlt _ x hx y hy
    simp only [List.mem_singleton] at hx hy
    subst hx hy
    refine toFinset_ne_of_mem _ _
      (var (m : Int) (1 + (i : Int)) (1 + ((0 : Nat) : Int))) ?_ ?_
    · simp only [List.mem_flatMap, List.mem_range, List.mem_singleton]
      exact ⟨0, by omega, rfl⟩
    · intro hmem
      simp only [List.mem_flatMap, List.mem_range, List.mem_singleton] at hmem
      obtain ⟨j2, hj2, h⟩ := hmem
      have := (var_cast_inj m _ _ 0 j2 (by omega) hj2 h).1
      omega

theorem pairwise_clauses (m : Nat) (hm : 1 ≤ m) :
    (amoList m ++ aloList m).Pairwise (fun c d => c.toFinset ≠ d.toFinset) := by
  rw [List.pairwise_append]
  refine ⟨pairwise_amoList m, pairwise_aloList m hm, ?_⟩
  intro c hc d hd
  obtain ⟨j, _, i, _, t, _, rfl⟩ := (mem_amoList m c).1 hc
  obtain ⟨i2, _, rfl⟩ := (mem_aloList m d).1 hd
  refine toFinset_ne_of_mem _ _
    (-(var (m : Int) (1 + (i : Int)) (1 + (j : Int)))) (by simp) ?_
  intro hmem
  simp only [List.mem_flatMap, List.mem_range, List.mem_singleton] at hmem
  obtain ⟨j2, _, h⟩ := hmem
  have p1 := var_cast_pos m i j
  have p2 := var_cast_pos m i2 j2
  omega

theorem nodup_clauses (m : Nat) (hm : 1 ≤ m) : (amoList m ++ aloList m).Nodup := by
  refine (pairwise_clauses m hm).imp ?_
  intro c d h e
  exact h (by rw [e])

theorem natAbs_neg_var (m i j : Nat) :
    (-(var (m : Int) (1 + (i : Int)) (1 + (j : Int)))).natAbs = m * i + j + 1 := by
  rw [var_cast, Int.natAbs_neg, Int.natAbs_ofNat]

theorem natAbs_var (m i j : Nat) :
    (var (m : Int) (1 + (i : Int)) (1 + (j : Int))).natAbs = m * i + j + 1 := by
  rw [var_cast, Int.natAbs_ofNat]

theorem amo_pair_facts (m i t j : Nat) (hm : 1 ≤ m) :
    m * i + j + 1 < m * (i + 1 + t) + j + 1 ∧
      (((m * i + j + 1 : Nat) : Int) % (m : Int)
        = ((m * (i + 1 + t) + j + 1 : Nat) : Int) % (m : Int)) := by
  have e : m * (i + 1 + t) = m * i + m + m * t := by ring
  constructor
  · rw [e]
    omega
  · have h1 : (m * i + j + 1) % m = (j + 1) % m := by
      rw [Nat.add_assoc, Nat.mul_add_mod]
    have h2 : (m * (i + 1 + t) + j + 1) % m = (j + 1) % m := by
      rw [Nat.add_assoc, Nat.mul_add_mod]
    have h3 : (m * i + j + 1) % m = (m * (i + 1 + t) + j + 1) % m := by rw [h1, h2]
    exact_mod_cast congrArg (fun k : Nat => (k : Int)) h3

theorem nodup_vars_clause (m : Nat) (hm : 1 ≤ m) :
    ∀ c ∈ amoList m ++ aloList m, (c.map Int.natAbs).Nodup := by
  intro c hc
  rcases List.mem_append.1 hc with h | h
  · obtain ⟨j, _, i, _, t, _, rfl⟩ := (mem_amoList m c).1 h
    have hf := (amo_pair_facts m i t j hm).1
    rw [var_cast_shift]
    simp only [List.map_cons, List.map_nil, natAbs_neg_var, List.nodup_cons,
      List.mem_singleton, List.not_mem_nil, not_false_eq_true, List.nodup_nil, and_true]
    omega
  · obtain ⟨i, _, rfl⟩ := (mem_aloList m c).1 h
    rw [flatMap_singleton_eq_map, List.map_map]
    refine List.Nodup.map_on ?_ (List.nodup_range m)
    intro x _ y _ hxy
    simp only [Function.comp, natAbs_var] at hxy
    omega

theorem negative_pair_order (m : Nat) (hm : 1 ≤ m) :
    ∀ c ∈ amoList m ++ aloList m, ∀ a b : Int, c = [a, b] → a < 0 → b < 0 →
      a.natAbs < b.natAbs ∧ (a.natAbs : Int) % (m : Int) = (b.natAbs : Int) % (m : Int) := by
  intro c hc a b hab ha hb
  rcases List.mem_append.1 hc with h | h
  · obtain ⟨j, _, i, _, t, _, rfl⟩ := (mem_amoList m c).1 h
    rw [var_cast_shift] at hab
    simp only [List.cons.injEq, and_true] at hab
    obtain ⟨rfl, rfl⟩ := hab
    rw [natAbs_neg_var, natAbs_neg_var]
    exact amo_pair_facts m i t j hm
  · obtain ⟨i, _, rfl⟩ := (mem_aloList m c).1 h
    have hmem : a ∈ (List.range m).flatMap
        (fun j => [var (m : Int) (1 + (i : Int)) (1 + (j : Int))]) := by
      rw [hab]
      exact List.mem_cons_self _ _
    simp only [List.mem_flatMap, List.mem_range, List.mem_singleton] at hmem
    obtain ⟨j, _, rfl⟩ := hmem
    have p := var_cast_pos m i j
    omega

theorem exact_distinct (n : Int) (hn : 1 ≤ n) :
    (clausesZ n).Pairwise (fun c d => c.toFinset ≠ d.toFinset) ∧
      (clausesZ n).Nodup ∧
      (∀ c ∈ clausesZ n, (c.map Int.natAbs).Nodup) ∧
      (∀ c ∈ clausesZ n, ∀ a b : Int, c = [a, b] → a < 0 → b < 0 →
        a.natAbs < b.natAbs ∧ (a.natAbs : Int) % n = (b.natAbs : Int) % n) := by
  obtain ⟨m, hm, rfl⟩ := exists_nat_of_one_le n hn
  rw [clauses_cast]
  exact ⟨pairwise_clauses m hm, nodup_clauses m hm, nodup_vars_clause m hm,
    negative_pair_order m hm⟩

/-! ## No clause is redundant -/

theorem placement_var (m : Nat) (p : Nat → Nat → Bool) (i j : Nat) (hj : j < m) :
    placement m p (var (m : Int) (1 + (i : Int)) (1 + (j : Int))) = p i j := by
  have hm : 0 < m := by omega
  rw [var_cast]
  unfold placement
  rw [Int.toNat_ofNat, Nat.add_sub_cancel, Nat.mul_add_div hm, Nat.mul_add_mod,
    Nat.div_eq_of_lt hj, Nat.mod_eq_of_lt hj, Nat.add_zero]

theorem alo_clause_true (m : Nat) (p : Nat → Nat → Bool) (i : Nat)
    (h : ∃ j, j < m ∧ p i j = true) :
    clauseTrue (placement m p)
      ((List.range m).flatMap fun j => [var (m : Int) (1 + (i : Int)) (1 + (j : Int))])
      = true := by
  obtain ⟨j, hj, hp⟩ := h
  unfold clauseTrue
  rw [List.any_eq_true]
  refine ⟨var (m : Int) (1 + (i : Int)) (1 + (j : Int)), ?_, ?_⟩
  · simp only [List.mem_flatMap, List.mem_range, List.mem_singleton]
    exact ⟨j, hj, rfl⟩
  · have pos := var_cast_pos m i j
    unfold litTrue
    rw [if_pos pos, placement_var m p i j hj, hp]

theorem amo_clause_true (m : Nat) (p : Nat → Nat → Bool) (j i t : Nat) (hj : j < m)
    (h : ¬ (p i j = true ∧ p (i + 1 + t) j = true)) :
    clauseTrue (placement m p)
      [-(var (m : Int) (1 + (i : Int)) (1 + (j : Int))),
        -(var (m : Int) (1 + (i : Int) + 1 + (t : Int)) (1 + (j : Int)))] = true := by
  rw [var_cast_shift]
  have p1 := var_cast_pos m i j
  have p2 := var_cast_pos m (i + 1 + t) j
  have n1 : ¬ (0 < -(var (m : Int) (1 + (i : Int)) (1 + (j : Int)))) := by omega
  have n2 : ¬ (0 < -(var (m : Int) (1 + ((i + 1 + t : Nat) : Int)) (1 + (j : Int)))) := by
    omega
  unfold clauseTrue
  simp only [List.any_cons, List.any_nil, Bool.or_false, litTrue, if_neg n1, if_neg n2,
    neg_neg, placement_var m p _ j hj]
  cases h1 : p i j
  · simp
  · cases h2 : p (i + 1 + t) j
    · simp
    · exact absurd ⟨h1, h2⟩ h

theorem holeSkip_lt (m i0 i : Nat) (hi0 : i0 ≤ m) (hi : i ≤ m) (hne : i ≠ i0) :
    holeSkip i0 i < m := by
  unfold holeSkip
  split_ifs <;> omega

theorem holeSkip_inj (i0 i k : Nat) (hik : i < k) (hi : i ≠ i0) (hk : k ≠ i0) :
    holeSkip i0 i ≠ holeSkip i0 k := by
  unfold holeSkip
  split_ifs <;> omega

theorem holeShared_lt (m j0 i1 i2 i : Nat) (hj0 : j0 < m) (h12 : i1 < i2) (h2 : i2 ≤ m)
    (hi : i ≤ m) : holeShared j0 i1 i2 i < m := by
  unfold holeShared
  split_ifs <;> omega

theorem holeShared_inj (j0 i1 i2 i k : Nat) (h12 : i1 < i2) (hik : i < k)
    (hne : ¬ (i = i1 ∧ k = i2)) : holeShared j0 i1 i2 i ≠ holeShared j0 i1 i2 k := by
  unfold holeShared
  split_ifs <;> omega

theorem holeShared_first (j0 i1 i2 : Nat) : holeShared j0 i1 i2 i1 = j0 := by
  unfold holeShared
  simp

theorem satisfiable_without_alo (m i0 : Nat) (hi0 : i0 < m + 1) :
    ∃ σ : Int → Bool, ∀ d ∈ amoList m ++ aloList m,
      d ≠ ((List.range m).flatMap fun j => [var (m : Int) (1 + (i0 : Int)) (1 + (j : Int))]) →
      clauseTrue σ d = true := by
  refine ⟨placement m (fun i j => decide (i ≠ i0 ∧ j = holeSkip i0 i)), ?_⟩
  intro d hd hne
  rcases List.mem_append.1 hd with h | h
  · obtain ⟨j, hj, i, _, t, _, rfl⟩ := (mem_amoList m d).1 h
    refine amo_clause_true m _ j i t hj ?_
    simp only [decide_eq_true_eq]
    rintro ⟨⟨h1, h2⟩, ⟨h3, h4⟩⟩
    exact holeSkip_inj i0 i (i + 1 + t) (by omega) h1 h3 (h2.symm.trans h4)
  · obtain ⟨i, hi, rfl⟩ := (mem_aloList m d).1 h
    have hii : i ≠ i0 := by
      intro e
      exact hne (by rw [e])
    refine alo_clause_true m _ i ⟨holeSkip i0 i, holeSkip_lt m i0 i (by omega) (by omega) hii, ?_⟩
    simpa using hii

theorem satisfiable_without_amo (m j0 i1 t1 : Nat) (hj0 : j0 < m) (hi1 : i1 < m)
    (ht1 : t1 < m - i1) :
    ∃ σ : Int → Bool, ∀ d ∈ amoList m ++ aloList m,
      d ≠ [-(var (m : Int) (1 + (i1 : Int)) (1 + (j0 : Int))),
        -(var (m : Int) (1 + (i1 : Int) + 1 + (t1 : Int)) (1 + (j0 : Int)))] →
      clauseTrue σ d = true := by
  refine ⟨placement m (fun i j => decide (j = holeShared j0 i1 (i1 + 1 + t1) i)), ?_⟩
  intro d hd hne
  rcases List.mem_append.1 hd with h | h
  · obtain ⟨j, hj, i, _, t, _, rfl⟩ := (mem_amoList m d).1 h
    refine amo_clause_true m _ j i t hj ?_
    simp only [decide_eq_true_eq]
    rintro ⟨h1, h2⟩
    by_cases hc : i = i1 ∧ i + 1 + t = i1 + 1 + t1
    · obtain ⟨e1, e2⟩ := hc
      have e3 : t = t1 := by omega
      subst e1 e3
      rw [holeShared_first] at h1
      subst h1
      exact hne rfl
    · exact holeShared_inj j0 i1 (i1 + 1 + t1) i (i + 1 + t) (by omega) (by omega) hc
        (h1.symm.trans h2)
  · obtain ⟨i, hi, rfl⟩ := (mem_aloList m d).1 h
    refine alo_clause_true m _ i ⟨holeShared j0 i1 (i1 + 1 + t1) i,
      holeShared_lt m j0 i1 (i1 + 1 + t1) i hj0 (by omega) (by omega) (by omega), ?_⟩
    simp only [decide_eq_true_eq]

theorem satisfiable_without (m : Nat) (hm : 1 ≤ m) :
    ∀ c ∈ amoList m ++ aloList m, ∃ σ : Int → Bool,
      ∀ d ∈ (amoList m ++ aloList m).erase c, clauseTrue σ d = true := by
  intro c hc
  have hmem : ∀ d, d ∈ (amoList m ++ aloList m).erase c → d ≠ c ∧ d ∈ amoList m ++ aloList m :=
    fun d hd => ((nodup_clauses m hm).mem_erase_iff).1 hd
  rcases List.mem_append.1 hc with h | h
  · obtain ⟨j0, hj0, i1, hi1, t1, ht1, rfl⟩ := (mem_amoList m c).1 h
    obtain ⟨σ, hσ⟩ := satisfiable_without_amo m j0 i1 t1 hj0 hi1 ht1
    exact ⟨σ, fun d hd => hσ d (hmem d hd).2 (hmem d hd).1⟩
  · obtain ⟨i0, hi0, rfl⟩ := (mem_aloList m c).1 h
    obtain ⟨σ, hσ⟩ := satisfiable_without_alo m i0 hi0
    exact ⟨σ, fun d hd => hσ d (hmem d hd).2 (hmem d hd).1⟩

theorem exact_minimal (n : Int) (hn : 1 ≤ n) :
    (clausesZ n).Nodup ∧
      (∀ σ : Int → Bool, ∃ c ∈ clausesZ n, clauseTrue σ c = false) ∧
      ∀ c ∈ clausesZ n, ∃ σ : Int → Bool,
        ∀ d ∈ (clausesZ n).erase c, clauseTrue σ d = true := by
  obtain ⟨m, hm, rfl⟩ := exists_nat_of_one_le n hn
  rw [clauses_cast]
  refine ⟨nodup_clauses m hm, ?_, satisfiable_without m hm⟩
  intro σ
  obtain ⟨c, hc, hf⟩ := exists_falsified_clause m σ
  refine ⟨c, hc, ?_⟩
  unfold clauseTrue
  rw [List.any_eq_false]
  intro l hl
  rw [hf l hl]
  decide

/-! ## The machine run -/

theorem forFromM_eq {α : Type} (body : Int → Option (List α)) (body2 : Int → List α)
    (t : Nat) (x : Int)
    (h : ∀ s : Nat, s < t → body (x + (s : Int)) = some (body2 (x + (s : Int)))) :
    forFromM body t x = some (forFrom body2 t x) := by
  induction t generalizing x with
  | zero => rfl
  | succ t ih =>
    have h0 : body x = some (body2 x) := by
      have := h 0 (Nat.succ_pos t)
      simpa using this
    have h1 : forFromM body t (x + 1) = some (forFrom body2 t (x + 1)) := by
      apply ih
      intro s hs
      have := h (s + 1) (by omega)
      have e : x + ((s + 1 : Nat) : Int) = x + 1 + (s : Int) := by
        push_cast
        ring
      rwa [e] at this
    rw [forFromM, forFrom, h0, h1]

theorem forLoop32_eq {α : Type} (lo hi : Int) (body : Int → Option (List α))
    (body2 : Int → List α) (hhi : hi ≠ 2147483647)
    (h : ∀ v, lo ≤ v → v ≤ hi → body v = some (body2 v)) :
    forLoop32 lo hi body = some (forLoop lo hi body2) := by
  unfold forLoop32 forLoop
  rw [if_neg hhi]
  apply forFromM_eq
  intro s hs
  exact h _ (by omega) (by omega)

theorem forLoop32_never_ends {α : Type} (lo : Int) (body : Int → Option (List α)) :
    forLoop32 lo 2147483647 body = none := by
  unfold forLoop32
  rw [if_pos rfl]

theorem forLoop_congr {α : Type} (lo hi : Int) (body body2 : Int → List α)
    (h : ∀ v, lo ≤ v → v ≤ hi → body v = body2 v) :
    forLoop lo hi body = forLoop lo hi body2 := by
  rw [forLoop_eq_flatMap, forLoop_eq_flatMap]
  refine List.flatMap_congr ?_
  intro s hs
  rw [List.mem_range] at hs
  exact h _ (by omega) (by omega)

theorem wrap32_succ (n : Int) (h1 : 1 ≤ n) (h2 : n ≤ 2147483645) : wrap32 (n + 1) = n + 1 :=
  wrap32_of_inInt32 _ ⟨by omega, by omega⟩

theorem atMostOne_eq_W (n : Int) (h1 : 1 ≤ n) (h2 : n ≤ 2147483645) :
    atMostOne n = some (atMostOneW n) := by
  have hn : wrap32 (n + 1) ≠ 2147483647 := by
    rw [wrap32_succ n h1 h2]
    omega
  unfold atMostOne atMostOneW
  refine forLoop32_eq _ _ _ _ (by omega) ?_
  intro j _ _
  refine forLoop32_eq _ _ _ _ (by omega) ?_
  intro i _ _
  refine forLoop32_eq _ _ _ _ hn ?_
  intro k _ _
  rfl

theorem atLeastOne_eq_W (n : Int) (h1 : 1 ≤ n) (h2 : n ≤ 2147483645) :
    atLeastOne n = some (atLeastOneW n) := by
  have hn : wrap32 (n + 1) ≠ 2147483647 := by
    rw [wrap32_succ n h1 h2]
    omega
  unfold atLeastOne atLeastOneW
  refine forLoop32_eq _ _ _ _ hn ?_
  intro i _ _
  rw [forLoop32_eq 1 n _ (fun j => [Out.posLit (wrap32 (wrap32 (n * wrap32 (i - 1)) + j))])
    (by omega) (fun j _ _ => rfl)]
  rfl

theorem generate_eq_W (n : Int) (h1 : 1 ≤ n) (h2 : n ≤ 2147483645) :
    generate n = some (header n ++ atMostOneW n ++ atLeastOneW n) := by
  unfold generate
  rw [atMostOne_eq_W n h1 h2, atLeastOne_eq_W n h1 h2]

theorem wrapped_var (n a j : Int) (h1 : 1 ≤ n) (h2 : n ≤ 46340) (ha0 : 1 ≤ a) (ha1 : a ≤ n + 1)
    (hj0 : 1 ≤ j) (hj1 : j ≤ n) :
    wrap32 (wrap32 (n * wrap32 (a - 1)) + j) = n * (a - 1) + j := by
  have p0 : 0 ≤ n * (a - 1) := mul_nonneg (by omega) (by omega)
  have p1 : n * (a - 1) ≤ 46340 * 46340 := mul_le_mul h2 (by omega) (by omega) (by norm_num)
  have w1 : wrap32 (a - 1) = a - 1 := wrap32_of_inInt32 _ ⟨by omega, by omega⟩
  have w2 : wrap32 (n * (a - 1)) = n * (a - 1) := wrap32_of_inInt32 _ ⟨by omega, by omega⟩
  have w3 : wrap32 (n * (a - 1) + j) = n * (a - 1) + j :=
    wrap32_of_inInt32 _ ⟨by omega, by omega⟩
  rw [w1, w2, w3]

theorem atMostOneW_eq_Z (n : Int) (h1 : 1 ≤ n) (h2 : n ≤ 46340) :
    atMostOneW n = atMostOneZ n := by
  have wn : wrap32 (n + 1) = n + 1 := wrap32_succ n h1 (by omega)
  unfold atMostOneW atMostOneZ
  refine forLoop_congr _ _ _ _ ?_
  intro j hj0 hj1
  refine forLoop_congr _ _ _ _ ?_
  intro i hi0 hi1
  have wi : wrap32 (i + 1) = i + 1 := wrap32_succ i hi0 (by omega)
  rw [wi, wn]
  refine forLoop_congr _ _ _ _ ?_
  intro k hk0 hk1
  rw [wrapped_var n i j h1 h2 hi0 (by omega) hj0 hj1,
    wrapped_var n k j h1 h2 (by omega) hk1 hj0 hj1]

theorem atLeastOneW_eq_Z (n : Int) (h1 : 1 ≤ n) (h2 : n ≤ 46340) :
    atLeastOneW n = atLeastOneZ n := by
  have wn : wrap32 (n + 1) = n + 1 := wrap32_succ n h1 (by omega)
  unfold atLeastOneW atLeastOneZ
  rw [wn]
  refine forLoop_congr _ _ _ _ ?_
  intro i hi0 hi1
  congr 1
  refine forLoop_congr _ _ _ _ ?_
  intro j hj0 hj1
  rw [wrapped_var n i j h1 h2 hi0 hi1 hj0 hj1]

theorem generate_body (n : Int) (h1 : 1 ≤ n) (h2 : n ≤ 46340) :
    generate n = some (header n ++ atMostOneZ n ++ atLeastOneZ n) := by
  rw [generate_eq_W n h1 (by omega), atMostOneW_eq_Z n h1 h2, atLeastOneW_eq_Z n h1 h2]

theorem problemLine32_exact (n : Int) (h1 : 1 ≤ n) (h2 : n ≤ 1625) :
    problemLine32 n = Out.problem ((n + 1) * n) ((n + 1) + n * Int.tdiv (n * (n + 1)) 2) := by
  rw [problemLine32_eq n h1 h2, tdiv_eq_div n h1, mul_comm (n + 1) n]

theorem header_eq_Z (n : Int) (h1 : 1 ≤ n) (h2 : n ≤ 1625) : header n = headerZ n := by
  unfold header headerZ
  rw [wrap32_succ n h1 (by omega), problemLine32_exact n h1 h2]

theorem generate_exact (n : Int) (h1 : 1 ≤ n) (h2 : n ≤ 1625) :
    generate n = some (generateZ n) := by
  rw [generate_body n h1 (by omega), header_eq_Z n h1 h2]
  rfl

theorem header32_tokens (n : Int) : (header n).flatMap Out.tokens = [] := by
  simp [header, problemLine32, Out.tokens]

theorem clausesOf_run (n : Int) :
    clausesOf (header n ++ atMostOneZ n ++ atLeastOneZ n) = clausesZ n := by
  unfold clausesZ generateZ clausesOf
  simp only [List.append_assoc, List.flatMap_append, header32_tokens, header_tokens]

theorem afterProblem_run (n : Int) :
    afterProblem (header n ++ atMostOneZ n ++ atLeastOneZ n)
      = atMostOneZ n ++ atLeastOneZ n := by
  simp [header, problemLine32, afterProblem, Out.isProblem]

theorem afterProblem_run_eq (n : Int) :
    afterProblem (header n ++ atMostOneZ n ++ atLeastOneZ n) = afterProblem (generateZ n) := by
  rw [afterProblem_run, afterProblem_generate]

theorem filter_isProblem_body (n : Int) :
    (atMostOneZ n ++ atLeastOneZ n).filter Out.isProblem = [] := by
  have h := filter_isProblem_generate n
  unfold generateZ at h
  rw [List.append_assoc, List.filter_append] at h
  have hh : (headerZ n).filter Out.isProblem
      = [Out.problem ((n + 1) * n) ((n + 1) + n * Int.tdiv (n * (n + 1)) 2)] := by
    simp [headerZ, Out.isProblem]
  rw [hh] at h
  simpa using h

theorem filter_isProblem_run (n : Int) :
    (header n ++ atMostOneZ n ++ atLeastOneZ n).filter Out.isProblem = [problemLine32 n] := by
  rw [List.append_assoc, List.filter_append, filter_isProblem_body, List.append_nil]
  simp [header, problemLine32, Out.isProblem]

theorem wellFormed_run (n : Int) (h1 : 1 ≤ n) :
    ∀ o ∈ header n ++ atMostOneZ n ++ atLeastOneZ n, o.wellFormed = true := by
  intro o ho
  rw [List.append_assoc, List.mem_append, List.mem_append] at ho
  rcases ho with ho | ho | ho
  · simp only [header, problemLine32, List.mem_cons, List.mem_singleton, List.not_mem_nil,
      or_false] at ho
    rcases ho with rfl | rfl | rfl | rfl | rfl | rfl | rfl | rfl | rfl | rfl | rfl | rfl | rfl
      | rfl | rfl | rfl <;> rfl
  · unfold atMostOneZ at ho
    obtain ⟨j, hj0, _, ho⟩ := (mem_forLoop _ _ _ _).1 ho
    obtain ⟨i, hi0, _, ho⟩ := (mem_forLoop _ _ _ _).1 ho
    obtain ⟨k, hk0, _, ho⟩ := (mem_forLoop _ _ _ _).1 ho
    rw [List.mem_singleton] at ho
    subst ho
    have p0 : 0 ≤ n * (i - 1) := mul_nonneg (by omega) (by omega)
    have p1 : 0 ≤ n * (k - 1) := mul_nonneg (by omega) (by omega)
    simp only [Out.wellFormed, Bool.and_eq_true, decide_eq_true_eq]
    constructor <;> omega
  · unfold atLeastOneZ at ho
    obtain ⟨i, hi0, _, ho⟩ := (mem_forLoop _ _ _ _).1 ho
    rcases List.mem_append.1 ho with ho | ho
    · obtain ⟨j, hj0, _, ho⟩ := (mem_forLoop _ _ _ _).1 ho
      rw [List.mem_singleton] at ho
      subst ho
      have p0 : 0 ≤ n * (i - 1) := mul_nonneg (by omega) (by omega)
      simp only [Out.wellFormed, decide_eq_true_eq]
      omega
    · rw [List.mem_singleton] at ho
      subst ho
      rfl

/-! ## The instance of the specification -/

theorem filter_lt_range (n a : Nat) :
    (List.range n).filter (fun t => decide (a < t))
      = (List.range (n - (a + 1))).map (fun t => a + 1 + t) := by
  induction n with
  | zero => simp
  | succ n ih =>
    rw [List.range_succ, List.filter_append, ih]
    by_cases h : a < n
    · have e : n + 1 - (a + 1) = (n - (a + 1)) + 1 := by omega
      rw [e, List.range_succ, List.map_append]
      have e2 : a + 1 + (n - (a + 1)) = n := by omega
      simp [h, e2]
    · have e : n + 1 - (a + 1) = 0 := by omega
      have e2 : n - (a + 1) = 0 := by omega
      simp [h, e, e2]

theorem filter_upTo (m i0 : Nat) :
    ((List.range (m + 1)).map (fun (t : Nat) => (t : Int) + 1)).filter
        (fun k => decide ((i0 : Int) + 1 < k))
      = (List.range (m - i0)).map (fun (t : Nat) => ((i0 + 1 + t : Nat) : Int) + 1) := by
  rw [List.filter_map]
  have e : ((fun k => decide ((i0 : Int) + 1 < k)) ∘ fun (t : Nat) => (t : Int) + 1)
      = fun t => decide (i0 < t) := by
    funext t
    simp only [Function.comp]
    congr 1
    apply propext
    constructor <;> intro h <;> omega
  rw [e, filter_lt_range, List.map_map]
  have e2 : m + 1 - (i0 + 1) = m - i0 := by omega
  rw [e2]
  rfl

theorem specClauses_cast (m : Nat) : specClauses (m : Int) = amoList m ++ aloList m := by
  have e1 : (m : Int) + 1 = ((m + 1 : Nat) : Int) := by
    push_cast
    rfl
  unfold specClauses
  rw [← aloList_eq_map]
  congr 1
  rw [e1, upTo_cast, upTo_cast, List.flatMap_map]
  unfold amoList
  refine List.flatMap_congr ?_
  intro j _
  rw [List.flatMap_map]
  have hF : ∀ i0 : Nat,
      (((List.range (m + 1)).map (fun (t : Nat) => (t : Int) + 1)).filter
          (fun k => decide ((i0 : Int) + 1 < k))).map
        (fun k => [-((m : Int) * ((i0 : Int) + 1 - 1) + ((j : Int) + 1)),
          -((m : Int) * (k - 1) + ((j : Int) + 1))])
      = (List.range (m - i0)).flatMap fun t =>
          [[-(var (m : Int) (1 + (i0 : Int)) (1 + (j : Int))),
            -(var (m : Int) (1 + (i0 : Int) + 1 + (t : Int)) (1 + (j : Int)))]] := by
    intro i0
    rw [filter_upTo, List.map_map, flatMap_singleton_eq_map]
    refine List.map_congr_left ?_
    intro t _
    simp only [Function.comp, var]
    have ea : (m : Int) * ((i0 : Int) + 1 - 1) + ((j : Int) + 1)
        = (m : Int) * (1 + (i0 : Int) - 1) + (1 + (j : Int)) := by ring
    have eb : (m : Int) * (((i0 + 1 + t : Nat) : Int) + 1 - 1) + ((j : Int) + 1)
        = (m : Int) * (1 + (i0 : Int) + 1 + (t : Int) - 1) + (1 + (j : Int)) := by
      push_cast
      ring
    rw [ea, eb]
  simp only [hF]
  rw [List.range_succ, List.flatMap_append]
  simp

/-! ## The run at the first overflow -/

theorem run_facts (n : Int) (h1 : 1 ≤ n) (h2 : n ≤ 46340) :
    ∃ outs, generate n = some outs ∧ (∀ o ∈ outs, o.wellFormed = true) ∧
      clausesOf outs = clausesZ n ∧
      afterProblem outs = afterProblem (generateZ n) ∧
      outs.filter Out.isProblem = [problemLine32 n] :=
  ⟨_, generate_body n h1 h2, wellFormed_run n h1, clausesOf_run n, afterProblem_run_eq n,
    filter_isProblem_run n⟩

theorem negPair_overflow_mem : Out.negPair 1 (-2147479014) ∈ atMostOneW 46341 := by
  unfold atMostOneW
  refine (mem_forLoop _ _ _ _).2 ⟨1, by decide, by decide, ?_⟩
  refine (mem_forLoop _ _ _ _).2 ⟨1, by decide, by decide, ?_⟩
  refine (mem_forLoop _ _ _ _).2 ⟨46342, by decide, by decide, ?_⟩
  rw [List.mem_singleton]
  decide

theorem posLit_overflow_mem : Out.posLit (-2147479014) ∈ atLeastOneW 46341 := by
  unfold atLeastOneW
  refine (mem_forLoop _ _ _ _).2 ⟨46342, by decide, by decide, ?_⟩
  refine List.mem_append_left _ ?_
  refine (mem_forLoop _ _ _ _).2 ⟨1, by decide, by decide, ?_⟩
  rw [List.mem_singleton]
  decide

theorem overflow_run :
    ∃ outs, generate 46341 = some outs ∧ Out.negPair 1 (-2147479014) ∈ outs ∧
      Out.posLit (-2147479014) ∈ outs :=
  ⟨_, generate_eq_W 46341 (by decide) (by decide),
    List.mem_append_left _ (List.mem_append_right _ negPair_overflow_mem),
    List.mem_append_right _ posLit_overflow_mem⟩

theorem wrap32_natAbs (x : Int) : (wrap32 x).natAbs ≤ 2147483648 := by
  unfold wrap32
  omega

theorem tokens_in_range (n : Int) :
    ∀ o ∈ header n ++ atMostOneW n ++ atLeastOneW n, ∀ l ∈ o.tokens,
      l.natAbs ≤ 2147483648 := by
  intro o ho l hl
  rw [List.append_assoc, List.mem_append, List.mem_append] at ho
  rcases ho with ho | ho | ho
  · simp only [header, problemLine32, List.mem_cons, List.mem_singleton, List.not_mem_nil,
      or_false] at ho
    rcases ho with rfl | rfl | rfl | rfl | rfl | rfl | rfl | rfl | rfl | rfl | rfl | rfl | rfl
      | rfl | rfl | rfl <;> simp [Out.tokens] at hl
  · unfold atMostOneW at ho
    obtain ⟨j, _, _, ho⟩ := (mem_forLoop _ _ _ _).1 ho
    obtain ⟨i, _, _, ho⟩ := (mem_forLoop _ _ _ _).1 ho
    obtain ⟨k, _, _, ho⟩ := (mem_forLoop _ _ _ _).1 ho
    rw [List.mem_singleton] at ho
    subst ho
    simp only [Out.tokens, List.mem_cons, List.mem_singleton, List.not_mem_nil,
      or_false] at hl
    rcases hl with rfl | rfl | rfl
    · rw [Int.natAbs_neg]
      exact wrap32_natAbs _
    · rw [Int.natAbs_neg]
      exact wrap32_natAbs _
    · decide
  · unfold atLeastOneW at ho
    obtain ⟨i, _, _, ho⟩ := (mem_forLoop _ _ _ _).1 ho
    rcases List.mem_append.1 ho with ho | ho
    · obtain ⟨j, _, _, ho⟩ := (mem_forLoop _ _ _ _).1 ho
      rw [List.mem_singleton] at ho
      subst ho
      simp only [Out.tokens, List.mem_singleton] at hl
      subst hl
      exact wrap32_natAbs _
    · rw [List.mem_singleton] at ho
      subst ho
      simp only [Out.tokens, List.mem_singleton] at hl
      subst hl
      decide

theorem overflow_run_tokens :
    ∃ outs, generate 46341 = some outs ∧ Out.negPair 1 (-2147479014) ∈ outs ∧
      Out.posLit (-2147479014) ∈ outs ∧
      ∀ o ∈ outs, ∀ l ∈ o.tokens, l.natAbs ≤ 2147483648 :=
  ⟨_, generate_eq_W 46341 (by decide) (by decide),
    List.mem_append_left _ (List.mem_append_right _ negPair_overflow_mem),
    List.mem_append_right _ posLit_overflow_mem, tokens_in_range 46341⟩

theorem not_wellFormed_of_mem (outs : List Out)
    (h : Out.negPair 1 (-2147479014) ∈ outs) : ¬ (∀ o ∈ outs, o.wellFormed = true) := by
  intro hw
  exact absurd (hw _ h) (by decide)

theorem problem_run_1626 :
    ∃ outs, generate 1626 = some outs ∧
      outs.filter Out.isProblem = [Out.problem 2645502 (-2144172543)] ∧
      (((afterProblem outs).map Out.newlines).sum : Int) = 2150794753 := by
  obtain ⟨outs, hg, _, _, ha, hf⟩ := run_facts 1626 (by decide) (by decide)
  refine ⟨outs, hg, ?_, ?_⟩
  · rw [hf]
    decide
  · rw [ha]
    obtain ⟨v, c, _, hc, hl, _⟩ := exact_count 1626 (by decide)
    rw [hl, hc]
    decide

/-! ## The contract of the generator -/

/-- C1, as stated, fails: for `n = 46341` the index `n*(k-1)+j` of pigeon
`k = n+1` in hole `j = 1` is `2147488282`, above the largest `int`; the run
calls `printf("-%d -%d 0\n", 1, -2147479014)` and writes the line
`-1 --2147479014 0`, which is no clause: what is emitted is not the clause
set of the encoding. -/
theorem unsat_fails_at_overflow :
    ∃ outs, generate 46341 = some outs ∧
      Out.negPair 1 (-2147479014) ∈ outs ∧
      (Out.negPair 1 (-2147479014)).text = "-1 --2147479014 0\n".toList ∧
      ¬ (∀ o ∈ outs, o.wellFormed = true) := by
  obtain ⟨outs, hg, hm, _⟩ := overflow_run
  exact ⟨outs, hg, hm, by decide, not_wellFormed_of_mem outs hm⟩

/-- C1, amended: for every integer `n` with `1 ≤ n ≤ 46340` the run ends, every
clause line it writes is made of literals, and the clause set it emits is
unsatisfiable: under every truth assignment some emitted clause has all its
literals false. -/
theorem pigeonhole_unsat (n : Int) (h1 : 1 ≤ n) (h2 : n ≤ 46340) (σ : Int → Bool) :
    ∃ outs, generate n = some outs ∧ (∀ o ∈ outs, o.wellFormed = true) ∧
      ∃ c ∈ clausesOf outs, ∀ l ∈ c, litTrue σ l = false := by
  obtain ⟨outs, hg, hw, hc, _, _⟩ := run_facts n h1 h2
  refine ⟨outs, hg, hw, ?_⟩
  rw [hc]
  obtain ⟨m, _, rfl⟩ := exists_nat_of_one_le n h1
  rw [clauses_cast]
  exact exists_falsified_clause m σ

theorem pigeonhole_unsat_witness :
    (1 : Int) ≤ 2 ∧ (2 : Int) ≤ 46340 ∧
      ∃ outs, generate 2 = some outs ∧ (∀ o ∈ outs, o.wellFormed = true) ∧
        ∃ c ∈ clausesOf outs, ∀ l ∈ c, litTrue (fun v => decide (v = 1 ∨ v = 4)) l = false :=
  ⟨by decide, by decide, pigeonhole_unsat 2 (by decide) (by decide) _⟩

/-- C2, as stated, fails: for `n = 1626` the problem line announces
`-2144172543` clauses, the 32-bit value of `(n+1) + n*(n*(n+1)/2)`, while
`2150794753` clause lines follow it. -/
theorem count_fails_at_overflow :
    ∃ outs, generate 1626 = some outs ∧
      outs.filter Out.isProblem = [Out.problem 2645502 (-2144172543)] ∧
      (((afterProblem outs).map Out.newlines).sum : Int) = 2150794753 ∧
      (-2144172543 : Int) ≠ 2150794753 := by
  obtain ⟨outs, hg, hf, hl⟩ := problem_run_1626
  exact ⟨outs, hg, hf, hl, by decide⟩

/-- C2, amended: for every integer `n` with `1 ≤ n ≤ 1625` the number of clause
lines emitted after the problem line is exactly the clause count
`(n+1) + n*(n*(n+1)/2)` announced by the problem line: this is the number of
line breaks written after the problem line, and the number of clauses read
from that part of the output. -/
theorem clause_count (n : Int) (h1 : 1 ≤ n) (h2 : n ≤ 1625) :
    ∃ outs, ∃ v c : Int, generate n = some outs ∧
      outs.filter Out.isProblem = [Out.problem v c] ∧
      c = (n + 1) + n * (n * (n + 1) / 2) ∧
      (((afterProblem outs).map Out.newlines).sum : Int) = c ∧
      ((clausesOf (afterProblem outs)).length : Int) = c := by
  obtain ⟨v, c, hf, hc, hl, hk⟩ := exact_count n h1
  exact ⟨generateZ n, v, c, generate_exact n h1 h2, hf, hc, hl, hk⟩

theorem clause_count_witness :
    (1 : Int) ≤ 3 ∧ (3 : Int) ≤ 1625 ∧
      ∃ outs, ∃ v c : Int, generate 3 = some outs ∧
        outs.filter Out.isProblem = [Out.problem v c] ∧
        c = (3 + 1) + 3 * (3 * (3 + 1) / 2) ∧
        (((afterProblem outs).map Out.newlines).sum : Int) = c ∧
        ((clausesOf (afterProblem outs)).length : Int) = c :=
  ⟨by decide, by decide, clause_count 3 (by decide) (by decide)⟩

/-- C3, as stated, fails: for `n = 1626` the one problem line emitted is
`p cnf 2645502 -2144172543`, while `(n+1) + n*(n*(n+1)/2)` is `2150794753`. -/
theorem problem_line_fails_at_overflow :
    ∃ outs, generate 1626 = some outs ∧
      outs.filter Out.isProblem = [Out.problem 2645502 (-2144172543)] ∧
      (Out.problem 2645502 (-2144172543)).text = "p cnf 2645502 -2144172543\n".toList ∧
      Out.problem 2645502 (-2144172543)
        ≠ Out.problem (1626 * (1626 + 1)) ((1626 + 1) + 1626 * (1626 * (1626 + 1) / 2)) := by
  obtain ⟨outs, hg, hf, _⟩ := problem_run_1626
  exact ⟨outs, hg, hf, by decide, by decide⟩

/-- C3, amended: for every integer `n` with `1 ≤ n ≤ 1625` exactly one problem
line is emitted, and it is `p cnf V C` with `V = n*(n+1)` and
`C = (n+1) + n*(n*(n+1)/2)`. -/
theorem problem_line (n : Int) (h1 : 1 ≤ n) (h2 : n ≤ 1625) :
    ∃ outs, generate n = some outs ∧
      outs.filter Out.isProblem
        = [Out.problem (n * (n + 1)) ((n + 1) + n * (n * (n + 1) / 2))] :=
  ⟨generateZ n, generate_exact n h1 h2, exact_problem n h1⟩

theorem problem_line_witness :
    (1 : Int) ≤ 2 ∧ (2 : Int) ≤ 1625 ∧
      ∃ outs, generate 2 = some outs ∧
        outs.filter Out.isProblem
          = [Out.problem (2 * (2 + 1)) ((2 + 1) + 2 * (2 * (2 + 1) / 2))] :=
  ⟨by decide, by decide, problem_line 2 (by decide) (by decide)⟩

/-- C4, as stated, fails: for `n = 46341` the triple `(j, i, k) = (1, 1, 46342)`
has `n*(k-1)+j = 2147488282`, above the largest `int`; the call made for it is
`printf("-%d -%d 0\n", 1, -2147479014)`, which does not write the clause of
`-1` and `-2147488282`. -/
theorem at_most_one_fails_at_overflow :
    ∃ outs, generate 46341 = some outs ∧
      Out.negPair 1 (-2147479014) ∈ outs ∧
      (46341 : Int) * (1 - 1) + 1 = 1 ∧
      (46341 : Int) * (46342 - 1) + 1 = 2147488282 ∧
      wrap32 2147488282 = -2147479014 ∧
      ¬ (∀ o ∈ outs, o.wellFormed = true) := by
  obtain ⟨outs, hg, hm, _⟩ := overflow_run
  exact ⟨outs, hg, hm, by decide, by decide, by decide, not_wellFormed_of_mem outs hm⟩

/-- C4, amended: for every integer `n` with `1 ≤ n ≤ 46340` the first
`n*(n*(n+1)/2)` clauses emitted are the clauses `[-(n*(i-1)+j), -(n*(k-1)+j)]`
of a list of triples `(j, i, k)` that is strictly increasing in the
lexicographic order (so no triple occurs twice) and holds exactly the triples
with `1 ≤ j ≤ n` and `1 ≤ i < k ≤ n+1`. -/
theorem at_most_one_clauses (n : Int) (h1 : 1 ≤ n) (h2 : n ≤ 46340) :
    ∃ outs, ∃ T : List (Int × Int × Int),
      generate n = some outs ∧ (∀ o ∈ outs, o.wellFormed = true) ∧
      T.Pairwise lexLt ∧
      (∀ j i k : Int, (j, i, k) ∈ T ↔ 1 ≤ j ∧ j ≤ n ∧ 1 ≤ i ∧ i < k ∧ k ≤ n + 1) ∧
      (clausesOf outs).take (n * (n * (n + 1) / 2)).toNat
        = T.map (fun p => [-(n * (p.2.1 - 1) + p.1), -(n * (p.2.2 - 1) + p.1)]) := by
  obtain ⟨outs, hg, hw, hc, _, _⟩ := run_facts n h1 h2
  obtain ⟨T, hT, hmem, htake⟩ := exact_at_most_one n h1
  refine ⟨outs, T, hg, hw, hT, hmem, ?_⟩
  rw [hc]
  exact htake

theorem at_most_one_clauses_witness :
    (1 : Int) ≤ 2 ∧ (2 : Int) ≤ 46340 ∧
      ∃ outs, ∃ T : List (Int × Int × Int),
        generate 2 = some outs ∧ (∀ o ∈ outs, o.wellFormed = true) ∧
        T.Pairwise lexLt ∧
        (∀ j i k : Int, (j, i, k) ∈ T ↔ 1 ≤ j ∧ j ≤ 2 ∧ 1 ≤ i ∧ i < k ∧ k ≤ 2 + 1) ∧
        (clausesOf outs).take ((2 : Int) * (2 * (2 + 1) / 2)).toNat
          = T.map (fun p => [-(2 * (p.2.1 - 1) + p.1), -(2 * (p.2.2 - 1) + p.1)]) :=
  ⟨by decide, by decide, at_most_one_clauses 2 (by decide) (by decide)⟩

/-- C5, as stated, fails: for `n = 46341` the literal of pigeon `i = 46342` and
hole `j = 1` is `n*(i-1)+j = 2147488282`, above the largest `int`; the call
made for it is `printf("%d ", -2147479014)`, which writes a negative number
in an at-least-one-hole-per-pigeon clause. -/
theorem at_least_one_fails_at_overflow :
    ∃ outs, generate 46341 = some outs ∧
      Out.posLit (-2147479014) ∈ outs ∧
      (Out.posLit (-2147479014)).text = "-2147479014 ".toList ∧
      (46341 : Int) * (46342 - 1) + 1 = 2147488282 ∧
      wrap32 2147488282 = -2147479014 ∧
      ¬ (∀ o ∈ outs, o.wellFormed = true) := by
  obtain ⟨outs, hg, hn, hm⟩ := overflow_run
  exact ⟨outs, hg, hm, by decide, by decide, by decide, not_wellFormed_of_mem outs hn⟩

/-- C5, amended: for every integer `n` with `1 ≤ n ≤ 46340` the clauses emitted
after the first `n*(n*(n+1)/2)` ones are, for pigeon `i = 1, ..., n+1` in that
order, the clause of the literals `n*(i-1)+1, ..., n*(i-1)+n` in that order;
there are `n+1` of them, each of exactly `n` literals, all positive. -/
theorem at_least_one_clauses (n : Int) (h1 : 1 ≤ n) (h2 : n ≤ 46340) :
    ∃ outs, generate n = some outs ∧ (∀ o ∈ outs, o.wellFormed = true) ∧
      (clausesOf outs).drop (n * (n * (n + 1) / 2)).toNat
        = (upTo (n + 1)).map (fun i => (upTo n).map (fun j => n * (i - 1) + j)) ∧
      (((clausesOf outs).drop (n * (n * (n + 1) / 2)).toNat).length : Int) = n + 1 ∧
      ∀ c ∈ (clausesOf outs).drop (n * (n * (n + 1) / 2)).toNat,
        (c.length : Int) = n ∧ ∀ l ∈ c, 0 < l := by
  obtain ⟨outs, hg, hw, hc, _, _⟩ := run_facts n h1 h2
  refine ⟨outs, hg, hw, ?_⟩
  rw [hc]
  exact exact_at_least_one n h1

theorem at_least_one_clauses_witness :
    (1 : Int) ≤ 2 ∧ (2 : Int) ≤ 46340 ∧
      ∃ outs, generate 2 = some outs ∧ (∀ o ∈ outs, o.wellFormed = true) ∧
        (clausesOf outs).drop ((2 : Int) * (2 * (2 + 1) / 2)).toNat
          = (upTo (2 + 1)).map (fun i => (upTo 2).map (fun j => 2 * (i - 1) + j)) ∧
        (((clausesOf outs).drop ((2 : Int) * (2 * (2 + 1) / 2)).toNat).length : Int) = 2 + 1 ∧
        ∀ c ∈ (clausesOf outs).drop ((2 : Int) * (2 * (2 + 1) / 2)).toNat,
          (c.length : Int) = 2 ∧ ∀ l ∈ c, 0 < l :=
  ⟨by decide, by decide, at_least_one_clauses 2 (by decide) (by decide)⟩

/-- C6, as stated, fails: for `n = 46341` the run calls
`printf("-%d -%d 0\n", 1, -2147479014)`: the index printed for
`n*(k-1)+j = 2147488282` is `-2147479014`, which is not between `1` and
`V = n*(n+1)`, and the text `--2147479014` is no literal. -/
theorem bounds_fail_at_overflow :
    ∃ outs, generate 46341 = some outs ∧
      Out.negPair 1 (-2147479014) ∈ outs ∧
      ¬ ((1 : Int) ≤ -2147479014 ∧ (-2147479014 : Int) ≤ 46341 * (46341 + 1)) ∧
      ¬ (∀ o ∈ outs, o.wellFormed = true) := by
  obtain ⟨outs, hg, hm, _⟩ := overflow_run
  exact ⟨outs, hg, hm, by decide, not_wellFormed_of_mem outs hm⟩

/-- C6, amended: for every integer `n` with `1 ≤ n ≤ 46340` every literal of
every emitted clause has an absolute value between `1` and `V = n*(n+1)`. -/
theorem literal_bounds (n : Int) (h1 : 1 ≤ n) (h2 : n ≤ 46340) :
    ∃ outs, generate n = some outs ∧ (∀ o ∈ outs, o.wellFormed = true) ∧
      ∀ c ∈ clausesOf outs, ∀ l ∈ c, 1 ≤ |l| ∧ |l| ≤ n * (n + 1) := by
  obtain ⟨outs, hg, hw, hc, _, _⟩ := run_facts n h1 h2
  refine ⟨outs, hg, hw, ?_⟩
  rw [hc]
  exact exact_bounds n h1

theorem literal_bounds_witness :
    (1 : Int) ≤ 2 ∧ (2 : Int) ≤ 46340 ∧
      ∃ outs, generate 2 = some outs ∧ (∀ o ∈ outs, o.wellFormed = true) ∧
        ∀ c ∈ clausesOf outs, ∀ l ∈ c, 1 ≤ |l| ∧ |l| ≤ (2 : Int) * (2 + 1) :=
  ⟨by decide, by decide, literal_bounds 2 (by decide) (by decide)⟩

/-- C7, as stated, fails: for `n = 46341` the variable `V = n*(n+1)` is
`2147534622`, above the largest `int`, so no call writes it: every number
written has an absolute value of at most `2147483648`.  The call made for
pigeon `46342` and hole `1`, whose variable is `2147488282`, is
`printf("%d ", -2147479014)`. -/
theorem variables_fail_at_overflow :
    ∃ outs, generate 46341 = some outs ∧
      (46341 : Int) * (46341 + 1) = 2147534622 ∧
      (∀ o ∈ outs, ∀ l ∈ o.tokens, l.natAbs ≠ 2147534622) ∧
      Out.posLit (-2147479014) ∈ outs ∧
      wrap32 (46341 * (46342 - 1) + 1) = -2147479014 ∧
      ¬ (∀ o ∈ outs, o.wellFormed = true) := by
  obtain ⟨outs, hg, hn, hm, ht⟩ := overflow_run_tokens
  refine ⟨outs, hg, by decide, ?_, hm, by decide, not_wellFormed_of_mem outs hn⟩
  intro o ho l hl
  have := ht o ho l hl
  omega

/-- C7, amended: for every integer `n` with `1 ≤ n ≤ 46340` the variables
referenced by the emitted clauses are exactly `1, ..., n*(n+1)`, so that
`V = n*(n+1)` distinct variables are referenced; and `(i, j) ↦ n*(i-1)+j` is a
bijection from pigeons `[1, n+1]` times holes `[1, n]` onto `[1, V]`. -/
theorem variables_referenced (n : Int) (h1 : 1 ≤ n) (h2 : n ≤ 46340) :
    ∃ outs, generate n = some outs ∧ (∀ o ∈ outs, o.wellFormed = true) ∧
      (∀ v : Int, (∃ c ∈ clausesOf outs, ∃ l ∈ c, |l| = v) ↔ 1 ≤ v ∧ v ≤ n * (n + 1)) ∧
      (((((clausesOf outs).flatten.map Int.natAbs).toFinset.card : Nat) : Int)
        = n * (n + 1)) ∧
      Set.BijOn (fun p : Int × Int => var n p.1 p.2) (Set.Icc 1 (n + 1) ×ˢ Set.Icc 1 n)
        (Set.Icc 1 (n * (n + 1))) := by
  obtain ⟨outs, hg, hw, hc, _, _⟩ := run_facts n h1 h2
  refine ⟨outs, hg, hw, ?_⟩
  rw [hc]
  exact exact_variables n h1

theorem variables_referenced_witness :
    (1 : Int) ≤ 2 ∧ (2 : Int) ≤ 46340 ∧
      ∃ outs, generate 2 = some outs ∧ (∀ o ∈ outs, o.wellFormed = true) ∧
        (∀ v : Int, (∃ c ∈ clausesOf outs, ∃ l ∈ c, |l| = v)
          ↔ 1 ≤ v ∧ v ≤ (2 : Int) * (2 + 1)) ∧
        (((((clausesOf outs).flatten.map Int.natAbs).toFinset.card : Nat) : Int)
          = 2 * (2 + 1)) ∧
        Set.BijOn (fun p : Int × Int => var 2 p.1 p.2) (Set.Icc 1 (2 + 1) ×ˢ Set.Icc 1 2)
          (Set.Icc 1 (2 * (2 + 1))) :=
  ⟨by decide, by decide, variables_referenced 2 (by decide) (by decide)⟩

/-- C8, as stated, fails: for `n = 46341` the second loop nest calls
`printf("%d ", -2147479014)` for pigeon `46342`: the line of that pigeon holds
a negative number, so it is not a clause of `n` positive literals. -/
theorem positive_fail_at_overflow :
    ∃ outs, generate 46341 = some outs ∧
      Out.posLit (-2147479014) ∈ outs ∧
      Out.posLit (-2147479014) ∈ atLeastOneW 46341 ∧
      ¬ ((0 : Int) < -2147479014) ∧
      ¬ (∀ o ∈ outs, o.wellFormed = true) := by
  obtain ⟨outs, hg, hn, hm⟩ := overflow_run
  exact ⟨outs, hg, hm, posLit_overflow_mem, by decide, not_wellFormed_of_mem outs hn⟩

/-- C8, amended: for every integer `n` with `1 ≤ n ≤ 46340` exactly `n+1` of
the emitted clauses contain only positive literals, and each of those clauses
has exactly `n` literals. -/
theorem positive_clauses (n : Int) (h1 : 1 ≤ n) (h2 : n ≤ 46340) :
    ∃ outs, generate n = some outs ∧ (∀ o ∈ outs, o.wellFormed = true) ∧
      ((((clausesOf outs).filter (fun c => c.all fun l => decide (0 < l))).length : Int)
        = n + 1) ∧
      ∀ c ∈ (clausesOf outs).filter (fun c => c.all fun l => decide (0 < l)),
        (c.length : Int) = n := by
  obtain ⟨outs, hg, hw, hc, _, _⟩ := run_facts n h1 h2
  refine ⟨outs, hg, hw, ?_⟩
  rw [hc]
  exact exact_positive n h1

theorem positive_clauses_witness :
    (1 : Int) ≤ 2 ∧ (2 : Int) ≤ 46340 ∧
      ∃ outs, generate 2 = some outs ∧ (∀ o ∈ outs, o.wellFormed = true) ∧
        ((((clausesOf outs).filter (fun c => c.all fun l => decide (0 < l))).length : Int)
          = 2 + 1) ∧
        ∀ c ∈ (clausesOf outs).filter (fun c => c.all fun l => decide (0 < l)),
          (c.length : Int) = 2 :=
  ⟨by decide, by decide, positive_clauses 2 (by decide) (by decide)⟩

/-- C9, as stated, fails: for `n = 46341` the first loop nest calls
`printf("-%d -%d 0\n", 1, -2147479014)`, which writes the line
`-1 --2147479014 0`: a line of that nest that is not two negative literals. -/
theorem negative_pairs_fail_at_overflow :
    ∃ outs, generate 46341 = some outs ∧
      Out.negPair 1 (-2147479014) ∈ outs ∧
      Out.negPair 1 (-2147479014) ∈ atMostOneW 46341 ∧
      (Out.negPair 1 (-2147479014)).text = "-1 --2147479014 0\n".toList ∧
      ¬ (∀ o ∈ outs, o.wellFormed = true) := by
  obtain ⟨outs, hg, hm, _⟩ := overflow_run
  exact ⟨outs, hg, hm, negPair_overflow_mem, by decide, not_wellFormed_of_mem outs hm⟩

/-- C9, amended: for every integer `n` with `1 ≤ n ≤ 46340` exactly
`n*(n*(n+1)/2)` of the emitted clauses consist of exactly two literals that
are both negative. -/
theorem negative_pair_clauses (n : Int) (h1 : 1 ≤ n) (h2 : n ≤ 46340) :
    ∃ outs, generate n = some outs ∧ (∀ o ∈ outs, o.wellFormed = true) ∧
      ((((clausesOf outs).countP
          (fun c => decide (c.length = 2) && c.all fun l => decide (l < 0)) : Nat) : Int)
        = n * (n * (n + 1) / 2)) := by
  obtain ⟨outs, hg, hw, hc, _, _⟩ := run_facts n h1 h2
  refine ⟨outs, hg, hw, ?_⟩
  rw [hc]
  exact exact_negative n h1

theorem negative_pair_clauses_witness :
    (1 : Int) ≤ 2 ∧ (2 : Int) ≤ 46340 ∧
      ∃ outs, generate 2 = some outs ∧ (∀ o ∈ outs, o.wellFormed = true) ∧
        ((((clausesOf outs).countP
            (fun c => decide (c.length = 2) && c.all fun l => decide (l < 0)) : Nat) : Int)
          = 2 * (2 * (2 + 1) / 2)) :=
  ⟨by decide, by decide, negative_pair_clauses 2 (by decide) (by decide)⟩

/-- C13, as stated, fails: for `n = 1626` the line that begins with `p` is
`p cnf 2645502 -2144172543`, which is not the problem line `p cnf V C` of the
instance: `C = (n+1) + n*(n*(n+1)/2)` is `2150794753`. -/
theorem layout_fails_at_overflow :
    ∃ outs, generate 1626 = some outs ∧
      outs.filter Out.isProblem = [Out.problem 2645502 (-2144172543)] ∧
      (Out.problem 2645502 (-2144172543)).text.dropLast
        = "p cnf 2645502 -2144172543".toList ∧
      ((1626 : Int) * (1626 + 1) = 2645502
        ∧ ((1626 : Int) + 1) + 1626 * (1626 * (1626 + 1) / 2) = 2150794753) := by
  obtain ⟨outs, hg, hf, _⟩ := problem_run_1626
  exact ⟨outs, hg, hf, by decide, by decide⟩

/-- C13, amended: for every integer `n` with `1 ≤ n ≤ 1625` the lines of the
output are a block of lines that each begin with `c`, then the one problem
line `p cnf V C`, then the clause lines, each of which begins with a minus
sign or a digit; so exactly one line begins with `p`, no line after it begins
with `c` or `p`, and every line before it begins with `c`. -/
theorem output_layout (n : Int) (h1 : 1 ≤ n) (h2 : n ≤ 1625) :
    ∃ outs, ∃ comments : List (List Char),
      generate n = some outs ∧
      linesOf (textOf outs)
        = comments
          ++ [ "p cnf ".toList ++ fmtInt (n * (n + 1)) ++ " ".toList
                ++ fmtInt ((n + 1) + n * (n * (n + 1) / 2)) ]
          ++ (clausesOf outs).map clauseLine ∧
      (∀ l ∈ comments, l.head? = some 'c') ∧
      (∀ l ∈ (clausesOf outs).map clauseLine,
        ∃ ch, l.head? = some ch ∧ (ch = '-' ∨ ch.isDigit = true)) ∧
      (linesOf (textOf outs)).countP (fun l => l.head? == some 'p') = 1 := by
  obtain ⟨comments, hl, hc, hr, hp⟩ := exact_layout n h1
  unfold clausesZ at hl hr
  exact ⟨generateZ n, comments, generate_exact n h1 h2, hl, hc, hr, hp⟩

theorem output_layout_witness :
    (1 : Int) ≤ 1 ∧ (1 : Int) ≤ 1625 ∧
      ∃ outs, ∃ comments : List (List Char),
        generate 1 = some outs ∧
        linesOf (textOf outs)
          = comments
            ++ [ "p cnf ".toList ++ fmtInt ((1 : Int) * (1 + 1)) ++ " ".toList
                  ++ fmtInt (((1 : Int) + 1) + 1 * (1 * (1 + 1) / 2)) ]
            ++ (clausesOf outs).map clauseLine ∧
        (∀ l ∈ comments, l.head? = some 'c') ∧
        (∀ l ∈ (clausesOf outs).map clauseLine,
          ∃ ch, l.head? = some ch ∧ (ch = '-' ∨ ch.isDigit = true)) ∧
        (linesOf (textOf outs)).countP (fun l => l.head? == some 'p') = 1 :=
  ⟨by decide, by decide, output_layout 1 (by decide) (by decide)⟩

/-- C14, as stated, fails: for `n = 46341` the run calls
`printf("-%d -%d 0\n", 1, -2147479014)`, whose text is `-1 --2147479014 0`
and a line break: the second item of that line is not a signed decimal
integer. -/
theorem clause_text_fails_at_overflow :
    ∃ outs, generate 46341 = some outs ∧
      Out.negPair 1 (-2147479014) ∈ outs ∧
      (Out.negPair 1 (-2147479014)).text = "-1 --2147479014 0\n".toList ∧
      (Out.negPair 1 (-2147479014)).text
        ≠ clauseLine (Out.negPair 1 (-2147479014)).tokens.dropLast ++ ['\n'] ∧
      ¬ (∀ o ∈ outs, o.wellFormed = true) := by
  obtain ⟨outs, hg, hm, _⟩ := overflow_run
  exact ⟨outs, hg, hm, by decide, by decide, not_wellFormed_of_mem outs hm⟩

/-- C14, amended: for every integer `n` with `1 ≤ n ≤ 46340` the text written
after the problem line is, clause by clause, the literals of the clause as
signed decimal integers in clause order, each followed by exactly one space,
then the sentinel `0` and a line break; and no literal of a clause is `0`. -/
theorem clause_line_text (n : Int) (h1 : 1 ≤ n) (h2 : n ≤ 46340) :
    ∃ outs, generate n = some outs ∧ (∀ o ∈ outs, o.wellFormed = true) ∧
      textOf (afterProblem outs)
        = (clausesOf outs).flatMap
            (fun c => c.flatMap (fun l => fmtInt l ++ [' ']) ++ ['0'] ++ ['\n']) ∧
      linesOf (textOf (afterProblem outs))
        = (clausesOf outs).map (fun c => c.flatMap (fun l => fmtInt l ++ [' ']) ++ ['0']) ∧
      ∀ c ∈ clausesOf outs, ∀ l ∈ c, l ≠ 0 := by
  obtain ⟨outs, hg, hw, hc, ha, _⟩ := run_facts n h1 h2
  refine ⟨outs, hg, hw, ?_⟩
  rw [hc, ha]
  exact exact_text n h1

theorem clause_line_text_witness :
    (1 : Int) ≤ 2 ∧ (2 : Int) ≤ 46340 ∧
      ∃ outs, generate 2 = some outs ∧ (∀ o ∈ outs, o.wellFormed = true) ∧
        textOf (afterProblem outs)
          = (clausesOf outs).flatMap
              (fun c => c.flatMap (fun l => fmtInt l ++ [' ']) ++ ['0'] ++ ['\n']) ∧
        linesOf (textOf (afterProblem outs))
          = (clausesOf outs).map (fun c => c.flatMap (fun l => fmtInt l ++ [' ']) ++ ['0']) ∧
        ∀ c ∈ clausesOf outs, ∀ l ∈ c, l ≠ 0 :=
  ⟨by decide, by decide, clause_line_text 2 (by decide) (by decide)⟩

/-- C18, as stated, fails: for `n = 46341` the run writes the line
`-1 --2147479014 0` for pigeons `1` and `46342` in hole `1`, in place of the
clause of `-1` and `-2147488282`: what is emitted is not the clause set of
the encoding, of which every clause is needed. -/
theorem minimal_fails_at_overflow :
    ∃ outs, generate 46341 = some outs ∧
      Out.negPair 1 (-2147479014) ∈ outs ∧
      Out.negPair 1 (-2147479014)
        ≠ Out.negPair (46341 * (1 - 1) + 1) (46341 * (46342 - 1) + 1) ∧
      ¬ (∀ o ∈ outs, o.wellFormed = true) := by
  obtain ⟨outs, hg, hm, _⟩ := overflow_run
  exact ⟨outs, hg, hm, by decide, not_wellFormed_of_mem outs hm⟩

/-- C18, amended: for every integer `n` with `1 ≤ n ≤ 46340` the emitted
instance is minimally unsatisfiable: the emitted clauses are pairwise
distinct, every assignment falsifies one of them, and when any single emitted
clause is removed some assignment satisfies all the clauses that are left. -/
theorem minimally_unsatisfiable (n : Int) (h1 : 1 ≤ n) (h2 : n ≤ 46340) :
    ∃ outs, generate n = some outs ∧ (∀ o ∈ outs, o.wellFormed = true) ∧
      (clausesOf outs).Nodup ∧
      (∀ σ : Int → Bool, ∃ c ∈ clausesOf outs, clauseTrue σ c = false) ∧
      ∀ c ∈ clausesOf outs, ∃ σ : Int → Bool,
        ∀ d ∈ (clausesOf outs).erase c, clauseTrue σ d = true := by
  obtain ⟨outs, hg, hw, hc, _, _⟩ := run_facts n h1 h2
  refine ⟨outs, hg, hw, ?_⟩
  rw [hc]
  exact exact_minimal n h1

theorem minimally_unsatisfiable_witness :
    (1 : Int) ≤ 2 ∧ (2 : Int) ≤ 46340 ∧
      ∃ outs, generate 2 = some outs ∧ (∀ o ∈ outs, o.wellFormed = true) ∧
        (clausesOf outs).Nodup ∧
        (∀ σ : Int → Bool, ∃ c ∈ clausesOf outs, clauseTrue σ c = false) ∧
        ∀ c ∈ clausesOf outs, ∃ σ : Int → Bool,
          ∀ d ∈ (clausesOf outs).erase c, clauseTrue σ d = true :=
  ⟨by decide, by decide, minimally_unsatisfiable 2 (by decide) (by decide)⟩

/-- C20, as stated, fails twice.  For `n = 2` the emitted clause `1 2` has
exactly two literals, and its variables `1` and `2` are not congruent modulo
`2`: they are the two holes of pigeon `1`.  For `n = 46341` the run writes the
line `-1 --2147479014 0`, which is no clause of two variables of one hole. -/
theorem two_literal_clause_two_holes :
    (¬ (∀ outs, generate 2 = some outs → ∀ c ∈ clausesOf outs, ∀ a b : Int, c = [a, b] →
        a.natAbs < b.natAbs ∧ (a.natAbs : Int) % 2 = (b.natAbs : Int) % 2)) ∧
      (∃ outs, generate 46341 = some outs ∧ Out.negPair 1 (-2147479014) ∈ outs ∧
        ¬ (∀ o ∈ outs, o.wellFormed = true)) := by
  constructor
  · intro h
    have h1 := (h _ (generate_body 2 (by decide) (by decide)) [1, 2]
      (by rw [clausesOf_run]; decide) 1 2 rfl).2
    exact absurd h1 (by decide)
  · obtain ⟨outs, hg, hm, _⟩ := overflow_run
    exact ⟨outs, hg, hm, not_wellFormed_of_mem outs hm⟩

/-- C20, amended: for every integer `n` with `1 ≤ n ≤ 46340` the emitted
clauses are pairwise distinct as sets of literals (so no clause is emitted
twice), no clause mentions the same variable twice, and in each two-literal
clause whose literals are negative the first variable is strictly smaller than
the second and both are congruent modulo `n`. -/
theorem clauses_distinct (n : Int) (h1 : 1 ≤ n) (h2 : n ≤ 46340) :
    ∃ outs, generate n = some outs ∧ (∀ o ∈ outs, o.wellFormed = true) ∧
      (clausesOf outs).Pairwise (fun c d => c.toFinset ≠ d.toFinset) ∧
      (clausesOf outs).Nodup ∧
      (∀ c ∈ clausesOf outs, (c.map Int.natAbs).Nodup) ∧
      (∀ c ∈ clausesOf outs, ∀ a b : Int, c = [a, b] → a < 0 → b < 0 →
        a.natAbs < b.natAbs ∧ (a.natAbs : Int) % n = (b.natAbs : Int) % n) := by
  obtain ⟨outs, hg, hw, hc, _, _⟩ := run_facts n h1 h2
  refine ⟨outs, hg, hw, ?_⟩
  rw [hc]
  exact exact_distinct n h1

theorem clauses_distinct_witness :
    (1 : Int) ≤ 2 ∧ (2 : Int) ≤ 46340 ∧
      ∃ outs, generate 2 = some outs ∧ (∀ o ∈ outs, o.wellFormed = true) ∧
        (clausesOf outs).Pairwise (fun c d => c.toFinset ≠ d.toFinset) ∧
        (clausesOf outs).Nodup ∧
        (∀ c ∈ clausesOf outs, (c.map Int.natAbs).Nodup) ∧
        (∀ c ∈ clausesOf outs, ∀ a b : Int, c = [a, b] → a < 0 → b < 0 →
          a.natAbs < b.natAbs ∧ (a.natAbs : Int) % 2 = (b.natAbs : Int) % 2) :=
  ⟨by decide, by decide, clauses_distinct 2 (by decide) (by decide)⟩

/-! ## Argument validation -/

theorem main_reject (argv : List String)
    (h : argv.length ≠ 2 ∨ atoi (argv.getD 1 "") < 1) : main argv = some usage := by
  unfold main
  generalize atoi (argv.getD 1 "") = n at h
  by_cases h1 : argv.length ≠ 2
  · simp [h1]
  · have h2 : n < 1 := h.resolve_left h1
    simp [h1, h2]

theorem main_accept (argv : List String) (h1 : argv.length = 2)
    (h2 : ¬ atoi (argv.getD 1 "") < 1) :
    main argv
      = (generate (atoi (argv.getD 1 ""))).map
          (fun outs => { stdout := outs, status := 0 }) := by
  unfold main
  generalize atoi (argv.getD 1 "") = n at h2
  simp [h1, h2]

theorem clausesOf_exact (n : Int) (h1 : 1 ≤ n) : clausesOf (generateZ n) = specClauses n := by
  obtain ⟨m, _, rfl⟩ := exists_nat_of_one_le n h1
  rw [specClauses_cast, ← clauses_cast]
  rfl

/-- C10, as stated, fails: the argument `1626` is accepted and the run exits
with status `0`, but the problem line it writes announces `-2144172543`
clauses, where the instance has `2150794753`: what is written is not the full
instance.  And the argument `2147483647` is accepted, but the run never ends,
so it does not exit with status `0`. -/
theorem accepted_run_not_instance :
    atoi "1626" = 1626 ∧
      (∃ outs, main ["pigeonhole", "1626"] = some { stdout := outs, status := 0 } ∧
        outs.filter Out.isProblem = [Out.problem 2645502 (-2144172543)]) ∧
      ((1626 : Int) + 1) + 1626 * (1626 * (1626 + 1) / 2) = 2150794753 ∧
      atoi "2147483647" = 2147483647 ∧
      main ["pigeonhole", "2147483647"] = none := by
  refine ⟨by decide, ?_, by decide, by decide, by decide⟩
  obtain ⟨outs, hg, hf, _⟩ := problem_run_1626
  refine ⟨outs, ?_, hf⟩
  have e : atoi (["pigeonhole", "1626"].getD 1 "") = 1626 := by decide
  rw [main_accept ["pigeonhole", "1626"] rfl (by rw [e]; decide), e, hg]
  rfl

/-- C10, amended: the run fails exactly when the argument count is not one
positional argument or `atoi` of the argument, a 32-bit `int`, is less than
`1`; it then performs the `printf` calls of the usage message and nothing else
(no problem line, no clause) and exits with status `1`.  Otherwise, when the
value `n` of the argument is at most `1625`, it writes the full instance for
`n` (the comment lines, the problem line `p cnf V C`, the clauses of the
specification in their order) and exits with status `0`. -/
theorem main_outcome (argv : List String) (n : Int) (hn : atoi (argv.getD 1 "") = n) :
    ((∃ r, main argv = some r ∧ r.status ≠ 0) ↔ (argv.length ≠ 2 ∨ n < 1)) ∧
      ((argv.length ≠ 2 ∨ n < 1) → main argv = some usage) ∧
      (usage.status = 1 ∧
        usage.stdout
          = [ Out.str "Usage:\n", Out.str "\n", Out.str "  pigeonhole n\n", Out.str "\n",
              Out.str "where n>0 is the number of holes (the number of pigeons is n+1).\n" ] ∧
        usage.stdout.filter Out.isProblem = [] ∧
        clausesOf usage.stdout = []) ∧
      (argv.length = 2 → 1 ≤ n → n ≤ 1625 →
        ∃ outs, ∃ comments : List (List Char),
          main argv = some { stdout := outs, status := 0 } ∧
          outs.filter Out.isProblem
            = [Out.problem (n * (n + 1)) ((n + 1) + n * (n * (n + 1) / 2))] ∧
          clausesOf outs = specClauses n ∧
          linesOf (textOf outs)
            = comments
              ++ [ "p cnf ".toList ++ fmtInt (n * (n + 1)) ++ " ".toList
                    ++ fmtInt ((n + 1) + n * (n * (n + 1) / 2)) ]
              ++ (specClauses n).map clauseLine ∧
          (∀ l ∈ comments, l.head? = some 'c')) ∧
      (atoi "0" = 0 ∧ atoi "-5" = -5 ∧ atoi "abc" = 0 ∧ atoi " +12" = 12 ∧
        atoi "7x" = 7 ∧ atoi "2147483648" = -2147483648) := by
  subst hn
  refine ⟨?_, main_reject argv, ⟨rfl, rfl, by decide, by decide⟩, ?_,
    ⟨by decide, by decide, by decide, by decide, by decide, by decide⟩⟩
  · constructor
    · rintro ⟨r, hr, hs⟩
      by_contra hc
      rw [not_or, not_not] at hc
      rw [main_accept argv hc.1 hc.2] at hr
      cases hgen : generate (atoi (argv.getD 1 "")) with
      | none =>
        rw [hgen] at hr
        exact absurd hr (by simp)
      | some outs =>
        rw [hgen] at hr
        simp only [Option.map_some', Option.some.injEq] at hr
        subst hr
        exact hs rfl
    · intro hc
      exact ⟨usage, main_reject argv hc, by decide⟩
  · intro hlen h1 h2
    obtain ⟨comments, hl, hc, _, _⟩ := exact_layout _ h1
    refine ⟨generateZ _, comments, ?_, exact_problem _ h1, clausesOf_exact _ h1, ?_, hc⟩
    · rw [main_accept argv hlen (by omega), generate_exact _ h1 h2]
      rfl
    · unfold clausesZ at hl
      rw [clausesOf_exact _ h1] at hl
      exact hl

theorem main_outcome_witness :
    atoi (["pigeonhole", "2"].getD 1 "") = 2 ∧
      (((∃ r, main ["pigeonhole", "2"] = some r ∧ r.status ≠ 0)
          ↔ (["pigeonhole", "2"].length ≠ 2 ∨ (2 : Int) < 1)) ∧
      ((["pigeonhole", "2"].length ≠ 2 ∨ (2 : Int) < 1)
        → main ["pigeonhole", "2"] = some usage) ∧
      (usage.status = 1 ∧
        usage.stdout
          = [ Out.str "Usage:\n", Out.str "\n", Out.str "  pigeonhole n\n", Out.str "\n",
              Out.str "where n>0 is the number of holes (the number of pigeons is n+1).\n" ] ∧
        usage.stdout.filter Out.isProblem = [] ∧
        clausesOf usage.stdout = []) ∧
      (["pigeonhole", "2"].length = 2 → (1 : Int) ≤ 2 → (2 : Int) ≤ 1625 →
        ∃ outs, ∃ comments : List (List Char),
          main ["pigeonhole", "2"] = some { stdout := outs, status := 0 } ∧
          outs.filter Out.isProblem
            = [Out.problem (2 * (2 + 1)) ((2 + 1) + 2 * (2 * (2 + 1) / 2))] ∧
          clausesOf outs = specClauses 2 ∧
          linesOf (textOf outs)
            = comments
              ++ [ "p cnf ".toList ++ fmtInt ((2 : Int) * (2 + 1)) ++ " ".toList
                    ++ fmtInt (((2 : Int) + 1) + 2 * (2 * (2 + 1) / 2)) ]
              ++ (specClauses 2).map clauseLine ∧
          (∀ l ∈ comments, l.head? = some 'c')) ∧
      (atoi "0" = 0 ∧ atoi "-5" = -5 ∧ atoi "abc" = 0 ∧ atoi " +12" = 12 ∧
        atoi "7x" = 7 ∧ atoi "2147483648" = -2147483648)) :=
  ⟨by decide, main_outcome ["pigeonhole", "2"] 2 (by decide)⟩

/-- C11, as stated, fails: the invocation `pigeonhole 0` fails validation
(status `1`) and yet the text of the usage message is written on standard
output. -/
theorem usage_written_on_stdout :
    ∃ r, main ["pigeonhole", "0"] = some r ∧
      r.status = 1 ∧
      r.stdout ≠ [] ∧
      textOf r.stdout
        = ("Usage:\n\n  pigeonhole n\n\n"
            ++ "where n>0 is the number of holes (the number of pigeons is n+1).\n").toList :=
  ⟨usage, by decide, by decide, by decide, by decide⟩

/-- C11, amended: for every invocation that fails validation (argument count
other than one, or `atoi` of the argument less than `1`) the only thing
written on standard output is the usage message; no part of the instance is
written: no comment line, no problem line, no clause. -/
theorem failed_validation_output (argv : List String)
    (h : argv.length ≠ 2 ∨ atoi (argv.getD 1 "") < 1) :
    ∃ r, main argv = some r ∧
      r.status = 1 ∧
      r.stdout = usage.stdout ∧
      linesOf (textOf r.stdout)
        = [ "Usage:".toList, [], "  pigeonhole n".toList, [],
            "where n>0 is the number of holes (the number of pigeons is n+1).".toList ] ∧
      r.stdout.filter Out.isProblem = [] ∧
      clausesOf r.stdout = [] :=
  ⟨usage, main_reject argv h, rfl, rfl, by decide, by decide, by decide⟩

theorem failed_validation_output_witness :
    (["pigeonhole"].length ≠ 2 ∨ atoi (["pigeonhole"].getD 1 "") < 1) ∧
      ∃ r, main ["pigeonhole"] = some r ∧
        r.status = 1 ∧
        r.stdout = usage.stdout ∧
        linesOf (textOf r.stdout)
          = [ "Usage:".toList, [], "  pigeonhole n".toList, [],
              "where n>0 is the number of holes (the number of pigeons is n+1).".toList ] ∧
        r.stdout.filter Out.isProblem = [] ∧
        clausesOf r.stdout = [] :=
  ⟨by decide, failed_validation_output ["pigeonhole"] (by decide)⟩

/-- C12, as stated, fails: the argument `5abc` is not a decimal integer, yet
`atoi` reads `5` and the run writes the instance for `n = 5` and exits with
status `0`. -/
theorem trailing_text_accepted :
    isDecimalInteger "5abc" = false ∧
      atoi "5abc" = 5 ∧
      main ["pigeonhole", "5abc"]
        = (generate 5).map (fun outs => { stdout := outs, status := 0 }) ∧
      (generate 5).isSome = true ∧
      (generate 5).map (fun outs => outs.filter Out.isProblem) = some [Out.problem 30 81] ∧
      (generate 5).map (fun outs => (clausesOf outs).length) = some 81 := by
  decide

/-- C12, amended: for every argument string that is not a decimal integer and
that `atoi` reads as a value less than `1` (such as `abc`, `0abc`, `-5x` and
`0.5`), the run prints the usage message and exits with status `1` without
generating an instance. -/
theorem non_numeric_rejected (prog s : String) (_hs : isDecimalInteger s = false)
    (h : atoi s < 1) :
    ∃ r, main [prog, s] = some r ∧
      r.status = 1 ∧
      r.stdout = usage.stdout ∧
      r.stdout.filter Out.isProblem = [] ∧
      clausesOf r.stdout = [] :=
  ⟨usage, main_reject [prog, s] (Or.inr h), rfl, rfl, by decide, by decide⟩

theorem non_numeric_rejected_witness :
    isDecimalInteger "0abc" = false ∧ atoi "0abc" < 1 ∧
      ∃ r, main ["pigeonhole", "0abc"] = some r ∧
        r.status = 1 ∧
        r.stdout = usage.stdout ∧
        r.stdout.filter Out.isProblem = [] ∧
        clausesOf r.stdout = [] :=
  ⟨by decide, by decide, non_numeric_rejected "pigeonhole" "0abc" (by decide) (by decide)⟩

/-! ## Concrete instances -/

/-- C15: for `n = 1` the problem line announces `V = 2` and `C = 3`, and the
clause lines are exactly `-1 -2 0`, `1 0`, `2 0`, in that order. -/
theorem instance_one :
    main ["pigeonhole", "1"]
        = (generate 1).map (fun outs => { stdout := outs, status := 0 }) ∧
      (generate 1).isSome = true ∧
      (generate 1).map (fun outs => outs.filter Out.isProblem) = some [Out.problem 2 3] ∧
      (Out.problem 2 3).text = "p cnf 2 3\n".toList ∧
      (generate 1).map (fun outs => linesOf (textOf (afterProblem outs)))
        = some ["-1 -2 0".toList, "1 0".toList, "2 0".toList] ∧
      (generate 1).map clausesOf = some [[-1, -2], [1], [2]] := by
  decide

/-- C16: for `n = 2` the problem line announces `V = 6` and `C = 9`, and the
nine clauses are the six negative pairs `-1 -3`, `-1 -5`, `-3 -5`, `-2 -4`,
`-2 -6`, `-4 -6`, in that order, followed by `1 2`, `3 4`, `5 6`. -/
theorem instance_two :
    main ["pigeonhole", "2"]
        = (generate 2).map (fun outs => { stdout := outs, status := 0 }) ∧
      (generate 2).isSome = true ∧
      (generate 2).map (fun outs => outs.filter Out.isProblem) = some [Out.problem 6 9] ∧
      (Out.problem 6 9).text = "p cnf 6 9\n".toList ∧
      (generate 2).map clausesOf
        = some [[-1, -3], [-1, -5], [-3, -5], [-2, -4], [-2, -6], [-4, -6],
          [1, 2], [3, 4], [5, 6]] ∧
      (generate 2).map (fun outs => (clausesOf outs).length) = some 9 ∧
      (generate 2).map (fun outs => linesOf (textOf (afterProblem outs)))
        = some ["-1 -3 0".toList, "-1 -5 0".toList, "-3 -5 0".toList, "-2 -4 0".toList,
            "-2 -6 0".toList, "-4 -6 0".toList, "1 2 0".toList, "3 4 0".toList,
            "5 6 0".toList] := by
  decide

end Pigeonhole
